import Mathlib

/-!
# Verification of the cloud-profiler-nodejs pprof serializer and agent loop

This file gives a shallow embedding of the profile serializer
(`src/profilers/profile-serializer.ts`), of the relevant parts of the native
serializer (`bindings/serialize.cc`), and of the poll/retry logic of
`Profiler.createProfile` (`src/profiler.ts`), and proves the specified
properties about them.

Modelling conventions:
* JavaScript numbers are used at integral values throughout the serializer;
  they are modelled as `Nat` (counts, ids, indices, line numbers) and as `Int`
  where subtraction occurs (profile start/end times).
* The TS `Map` objects are modelled as association lists with first-match
  lookup (`alookup`) and append-on-miss insertion; this matches `Map.get` /
  `Map.set` for the serializer, which never overwrites an existing key.
* The TS location key string
  `` `${scriptId}:${lineNumber}:${columnNumber}:${name}` `` is injective in
  the tuple (the first three segments are decimal numerals, so the first
  three colons delimit them unambiguously); the key is therefore modelled
  directly as the tuple `(scriptId, lineNumber, columnNumber, name)`, and the
  function key as `(scriptId, name)`.
-/

set_option autoImplicit false

namespace CloudProfiler

/-! ## pprof message model (perftools.profiles, the fields the code emits) -/

/-- `perftools.profiles.ValueType`: pair of string-table indices. -/
structure ValueType where
  type : Nat
  unit : Nat
  deriving DecidableEq

/-- `perftools.profiles.Sample`. -/
structure Sample where
  locationId : List Nat
  value : List Nat
  deriving DecidableEq

/-- `perftools.profiles.Line`. -/
structure Line where
  functionId : Nat
  line : Nat
  deriving DecidableEq

/-- `perftools.profiles.Location`. -/
structure Location where
  id : Nat
  line : List Line
  deriving DecidableEq

/-- `perftools.profiles.Function`.  (Named `ProfileFunction` as in
`bindings/serialize.cc`, because `Function` is a Mathlib namespace and
`function` is a Lean keyword.)  The TS constructor omits `startLine`, in
which case the proto3 default `0` applies. -/
structure ProfileFunction where
  id : Nat
  name : Nat
  systemName : Nat
  filename : Nat
  startLine : Nat := 0
  deriving DecidableEq

/-- `perftools.profiles.IProfile`, restricted to the fields the serializer
populates.  The TS field `function` is a Lean keyword, hence `functions`. -/
structure IProfile where
  sampleType : List ValueType
  timeNanos : Int
  durationNanos : Int
  periodType : ValueType
  period : Nat
  sample : List Sample := []
  location : List Location := []
  functions : List ProfileFunction := []
  stringTable : List String := []
  deriving DecidableEq

/-! ## v8 profile tree model (`v8-types.ts`)

`ProfileNode` carries the fields the serializer reads (`name`, `scriptName`,
`scriptId`, `lineNumber`, `columnNumber`, `children`) plus a per-kind
payload: `hitCount : Nat` for `TimeProfileNode`, `allocations :
List Allocation` for `AllocationProfileNode`. -/

/-- An allocation record (`v8-types.ts` `Allocation`). -/
structure Allocation where
  sizeBytes : Nat
  count : Nat
  deriving DecidableEq

/-- A v8 profile node; `payload` is `Nat` (hitCount) for time profiles and
`List Allocation` for heap profiles. -/
inductive PNode (α : Type) where
  | mk (name : String) (scriptName : String) (scriptId : Nat)
       (lineNumber : Nat) (columnNumber : Nat) (payload : α)
       (children : List (PNode α))

namespace PNode

variable {α : Type}

def name : PNode α → String
  | .mk n _ _ _ _ _ _ => n

def scriptName : PNode α → String
  | .mk _ sn _ _ _ _ _ => sn

def scriptId : PNode α → Nat
  | .mk _ _ si _ _ _ _ => si

def lineNumber : PNode α → Nat
  | .mk _ _ _ ln _ _ _ => ln

def columnNumber : PNode α → Nat
  | .mk _ _ _ _ cn _ _ => cn

def payload : PNode α → α
  | .mk _ _ _ _ _ p _ => p

def children : PNode α → List (PNode α)
  | .mk _ _ _ _ _ _ cs => cs

end PNode

/-- `v8-types.ts` `TimeProfile`: start/end time of the run plus the sample
tree.  The interface documents both times as nanosecond timestamps. -/
structure TimeProfile where
  startTime : Int
  endTime : Int
  topDownRoot : PNode Nat

/-! ## Association-list lookup (model of `Map.get`) -/

/-- First-match lookup in an association list (TS `Map.get`). -/
def alookup {κ ν : Type} [DecidableEq κ] : List (κ × ν) → κ → Option ν
  | [], _ => none
  | (k, v) :: rest, key => if k = key then some v else alookup rest key

/-! ## StringTable (`profile-serializer.ts` lines 50-73) -/

/-- `StringTable`: the `strings` array and the `stringsMap` from strings to
their indices. -/
structure StringTable where
  strings : List String
  stringsMap : List (String × Nat)
  deriving DecidableEq

namespace StringTable

/-- `StringTable.getIndexOrAdd`: return the index of `str`, appending it to
the table first when absent (`loc = strings.push(str) - 1` is the old
length). -/
def getIndexOrAdd (t : StringTable) (str : String) : Nat × StringTable :=
  match alookup t.stringsMap str with
  | some loc => (loc, t)
  | none =>
      let loc := t.strings.length
      (loc, { strings := t.strings ++ [str],
              stringsMap := t.stringsMap ++ [(str, loc)] })

/-- The `StringTable` constructor: start empty and intern `''`. -/
def new : StringTable :=
  (getIndexOrAdd { strings := [], stringsMap := [] } "").2

end StringTable

/-! ## The serializer (`profile-serializer.ts` `serialize`, lines 87-160)

The local mutable arrays and maps of `serialize` are collected in a state
record that every helper threads through. -/

/-- Location-intern key: `(scriptId, lineNumber, columnNumber, name)`. -/
abbrev LocKey : Type := Nat × Nat × Nat × String

/-- Function-intern key: `(scriptId, name)`. -/
abbrev FunKey : Type := Nat × String

/-- The location key of a node (the TS key string
`` `${scriptId}:${lineNumber}:${columnNumber}:${name}` ``). -/
def locKey {α : Type} (node : PNode α) : LocKey :=
  (node.scriptId, node.lineNumber, node.columnNumber, node.name)

/-- The function key of a node (the TS key string
`` `${scriptId}:${name}` ``). -/
def funKey {α : Type} (node : PNode α) : FunKey :=
  (node.scriptId, node.name)

/-- The mutable local state of `serialize`: the output arrays and the three
intern maps, plus the string table passed in. -/
structure SerState where
  samples : List Sample
  locations : List Location
  functions : List ProfileFunction
  functionIdMap : List (FunKey × Nat)
  locationIdMap : List (LocKey × Nat)
  stringTable : StringTable
  deriving DecidableEq

/-- Fallback value for the (never hit in well-formed states) out-of-range
array access `functions[id - 1]`. -/
def dfltFunction : ProfileFunction := ⟨0, 0, 0, 0, 0⟩

/-- Fallback value for the out-of-range array access `locations[id - 1]`. -/
def dfltLocation : Location := ⟨0, []⟩

/-- `getFunction` (lines 141-159): intern a function keyed by
`(scriptId, name)`.  On a hit return `functions[id - 1]`; on a miss allocate
`id = functions.length + 1`, record it in `functionIdMap`, intern the name
and the script name, and push the new entry (the TS constructor call sets no
`startLine`, so it stays at the proto3 default `0`). -/
def getFunction {α : Type} (st : SerState) (node : PNode α) :
    ProfileFunction × SerState :=
  match alookup st.functionIdMap (funKey node) with
  | some id => (st.functions.getD (id - 1) dfltFunction, st)
  | none =>
      let id := st.functions.length + 1
      let fmap := st.functionIdMap ++ [(funKey node, id)]
      let p1 := st.stringTable.getIndexOrAdd node.name
      let p2 := p1.2.getIndexOrAdd node.scriptName
      let f : ProfileFunction :=
        { id := id, name := p1.1, systemName := p1.1, filename := p2.1 }
      (f, { st with functions := st.functions ++ [f],
                    functionIdMap := fmap,
                    stringTable := p2.2 })

/-- `getLine` (lines 134-139): build the `Line` for a node. -/
def getLine {α : Type} (st : SerState) (node : PNode α) : Line × SerState :=
  let p := getFunction st node
  (⟨p.1.id, node.lineNumber⟩, p.2)

/-- `getLocation` (lines 118-132): intern a location keyed by
`(scriptId, lineNumber, columnNumber, name)`.  On a hit return
`locations[id - 1]`; on a miss allocate `id = locations.length + 1`, record
it in `locationIdMap`, and push a `Location` with the single line built by
`getLine`. -/
def getLocation {α : Type} (st : SerState) (node : PNode α) :
    Location × SerState :=
  match alookup st.locationIdMap (locKey node) with
  | some id => (st.locations.getD (id - 1) dfltLocation, st)
  | none =>
      let id := st.locations.length + 1
      let lmap := st.locationIdMap ++ [(locKey node, id)]
      let p := getLine { st with locationIdMap := lmap } node
      let location : Location := ⟨id, [p.1]⟩
      (location, { p.2 with locations := p.2.locations ++ [location] })

/-- An `Entry`: a node together with the stack of location ids from its
parent up to (and excluding) the root. -/
structure SEntry (α : Type) where
  node : PNode α
  stack : List Nat

/-- The per-kind `AppendEntryToSamples` callback: it receives the node, the
stack after the node's own location was unshifted onto it, and the samples
accumulated so far, and returns the updated samples array. -/
abbrev AppendEntryToSamples (α : Type) : Type :=
  PNode α → List Nat → List Sample → List Sample

theorem sum_map_sizeOf_lt {α : Type} [SizeOf α] (cs : List (PNode α)) :
    (cs.map fun c => sizeOf c).sum < sizeOf cs := by
  induction cs with
  | nil => simp
  | cons c cs ih =>
      simp only [List.map_cons, List.sum_cons, List.cons.sizeOf_spec]
      omega

theorem childrenWeight_lt {α : Type} [SizeOf α] (n : PNode α) :
    (n.children.map fun c => sizeOf c).sum < sizeOf n := by
  cases n with
  | mk a b c d e p cs =>
      have h := sum_map_sizeOf_lt (α := α) cs
      simp only [PNode.children, PNode.mk.sizeOf_spec]
      omega

theorem weight_map_mk {α : Type} [SizeOf α] (cs : List (PNode α)) (s : List Nat) :
    List.map (fun e => sizeOf e.node) (cs.map fun c => SEntry.mk c s)
      = cs.map fun c => sizeOf c := by
  induction cs with
  | nil => rfl
  | cons c cs ih => simp_all

/-- The worklist loop of `serialize` (lines 99-111).  The TS array used as a
stack (`push`/`pop` at the end) is modelled with the top at the head, so the
TS worklist is the reverse of this list.  Each iteration pops an entry,
interns its location, unshifts the location id onto the stack, lets the
callback append samples, and pushes one entry per child (in source order,
hence reversed here) carrying a copy of the extended stack. -/
def serializeLoop {α : Type} (append : AppendEntryToSamples α) :
    List (SEntry α) → SerState → SerState
  | [], st => st
  | e :: rest, st =>
      let p := getLocation st e.node
      let stack := p.1.id :: e.stack
      let st2 := { p.2 with samples := append e.node stack p.2.samples }
      serializeLoop append
        ((e.node.children.map fun c => SEntry.mk c stack).reverse ++ rest) st2
  termination_by entries _ => (entries.map fun e => sizeOf e.node).sum
  decreasing_by
    simp only [List.map_append, List.sum_append, List.map_reverse,
      List.sum_reverse, weight_map_mk, List.map_cons, List.sum_cons]
    have h := childrenWeight_lt (α := α) e.node
    omega

/-- Initial serializer state: empty arrays and maps plus the given string
table. -/
def initState (t : StringTable) : SerState :=
  ⟨[], [], [], [], [], t⟩

/-- The initial worklist: one entry per child of the root, with an empty
stack (`root.children.map((n) => ({node: n, stack: []}))`, reversed because
the TS array pops from the end). -/
def initEntries {α : Type} (root : PNode α) : List (SEntry α) :=
  (root.children.map fun n => SEntry.mk n []).reverse

/-- `serialize` (lines 87-160): run the worklist starting from the root's
children and store the resulting arrays into the profile. -/
def serialize {α : Type} (profile : IProfile) (root : PNode α)
    (appendToSamples : AppendEntryToSamples α) (stringTable : StringTable) :
    IProfile :=
  let st := serializeLoop appendToSamples (initEntries root)
    (initState stringTable)
  { profile with sample := st.samples, location := st.locations,
                 functions := st.functions,
                 stringTable := st.stringTable.strings }

/-! ## The two adapters (`serializeTimeProfile`, `serializeHeapProfile`) -/

/-- `createSampleValueType`: `(type: 'samples', unit: 'count')`. -/
def createSampleValueType (t : StringTable) : ValueType × StringTable :=
  let p1 := t.getIndexOrAdd "samples"
  let p2 := p1.2.getIndexOrAdd "count"
  (⟨p1.1, p2.1⟩, p2.2)

/-- `createTimeValueType`: `(type: 'time', unit: 'microseconds')`. -/
def createTimeValueType (t : StringTable) : ValueType × StringTable :=
  let p1 := t.getIndexOrAdd "time"
  let p2 := p1.2.getIndexOrAdd "microseconds"
  (⟨p1.1, p2.1⟩, p2.2)

/-- `createAllocationValueType`: `(type: 'space', unit: 'bytes')`. -/
def createAllocationValueType (t : StringTable) : ValueType × StringTable :=
  let p1 := t.getIndexOrAdd "space"
  let p2 := p1.2.getIndexOrAdd "bytes"
  (⟨p1.1, p2.1⟩, p2.2)

/-- `appendTimeEntryToSamples` (lines 204-214): when `hitCount > 0`, push one
sample with the entry's stack and
`value = [hitCount, hitCount * intervalMicros]`. -/
def appendTimeEntryToSamples (intervalMicros : Nat) :
    AppendEntryToSamples Nat := fun node stack samples =>
  if node.payload > 0 then
    samples ++ [⟨stack, [node.payload, node.payload * intervalMicros]⟩]
  else samples

/-- The string table with which `serializeTimeProfile` enters `serialize`:
the constructor seeds `''`, then the two value types intern their strings. -/
def timeInitTable : StringTable :=
  (createTimeValueType (createSampleValueType StringTable.new).2).2

/-- The final serializer state produced inside `serializeTimeProfile`. -/
def timeSerState (prof : TimeProfile) (intervalMicros : Nat) : SerState :=
  serializeLoop (appendTimeEntryToSamples intervalMicros)
    (initEntries prof.topDownRoot) (initState timeInitTable)

/-- `serializeTimeProfile` (lines 202-231). -/
def serializeTimeProfile (prof : TimeProfile) (intervalMicros : Nat) :
    IProfile :=
  let t0 := StringTable.new
  let ps := createSampleValueType t0
  let pt := createTimeValueType ps.2
  serialize
    { sampleType := [ps.1, pt.1],
      timeNanos := prof.startTime * 1000 * 1000,
      durationNanos := (prof.endTime - prof.startTime) * 1000 * 1000,
      periodType := pt.1,
      period := intervalMicros }
    prof.topDownRoot (appendTimeEntryToSamples intervalMicros) pt.2

/-- `appendHeapEntryToSamples` (lines 246-258): one sample per allocation
record, with `value = [alloc.count, alloc.sizeBytes * alloc.count]` (the
`length > 0` guard is redundant with the per-record loop). -/
def appendHeapEntryToSamples : AppendEntryToSamples (List Allocation) :=
  fun node stack samples =>
    if node.payload.length > 0 then
      samples ++ node.payload.map fun alloc =>
        ⟨stack, [alloc.count, alloc.sizeBytes * alloc.count]⟩
    else samples

/-- The string table with which `serializeHeapProfile` enters `serialize`. -/
def heapInitTable : StringTable :=
  (createAllocationValueType (createSampleValueType StringTable.new).2).2

/-- The final serializer state produced inside `serializeHeapProfile`. -/
def heapSerState (prof : PNode (List Allocation)) : SerState :=
  serializeLoop appendHeapEntryToSamples (initEntries prof)
    (initState heapInitTable)

/-- `serializeHeapProfile` (lines 243-274). -/
def serializeHeapProfile (prof : PNode (List Allocation))
    (startTimeNanos : Int) (durationNanos : Int) (intervalBytes : Nat) :
    IProfile :=
  let t0 := StringTable.new
  let ps := createSampleValueType t0
  let pa := createAllocationValueType ps.2
  serialize
    { sampleType := [ps.1, pa.1],
      timeNanos := startTimeNanos,
      durationNanos := durationNanos,
      periodType := pa.1,
      period := intervalBytes }
    prof appendHeapEntryToSamples pa.2

/-! ## The native serializer (`bindings/serialize.cc`)

Only the string/function interning of the C++ `Profile` class is needed
here (for the function-allocation and string-table claims); `Node` is the
abstract base whose accessors (`getFileID`, `name`, `filename`,
`lineNumber`, `columnNumber`) match the fields of `PNode`. -/

/-- The interning state of the C++ `Profile` class (`serialize.cc`):
`strings`/`stringIDMap` and `function`/`functionIDMap`. -/
structure CppProfile where
  strings : List String
  stringIDMap : List (String × Nat)
  functions : List ProfileFunction
  functionIDMap : List (FunKey × Nat)
  deriving DecidableEq

namespace CppProfile

/-- `Profile::stringID` (lines 233-243): look the string up, else append it
with `id = strings.size()`. -/
def stringID (p : CppProfile) (s : String) : Nat × CppProfile :=
  match alookup p.stringIDMap s with
  | some id => (id, p)
  | none =>
      let id := p.strings.length
      (id, { p with strings := p.strings ++ [s],
                    stringIDMap := p.stringIDMap ++ [(s, id)] })

/-- `Profile::functionID` (lines 215-231): look the `(fileID, name)` key up;
on a miss intern `name` and `filename`, allocate `id = function.size() + 1`
and push `ProfileFunction(id, nameX, nameX, filenameX, node.lineNumber())`
— the C++ serializer, unlike the TS one, does set `startLine`. -/
def functionID {α : Type} (p : CppProfile) (node : PNode α) :
    Nat × CppProfile :=
  match alookup p.functionIDMap (funKey node) with
  | some id => (id, p)
  | none =>
      let q1 := p.stringID node.name
      let q2 := q1.2.stringID node.scriptName
      let id := q2.2.functions.length + 1
      let f : ProfileFunction :=
        ⟨id, q1.1, q1.1, q2.1, node.lineNumber⟩
      (id, { q2.2 with functions := q2.2.functions ++ [f],
                       functionIDMap := q2.2.functionIDMap
                         ++ [(funKey node, id)] })

/-- The `Profile::Profile` constructor (lines 166-178) as far as the string
table is concerned: it pre-interns `""` first, then the period type and
frame-filter strings. -/
def new (periodType periodUnit dropFrames keepFrames : String) : CppProfile :=
  let p0 : CppProfile := ⟨[], [], [], []⟩
  let p1 := (p0.stringID "").2
  let p2 := (p1.stringID periodType).2
  let p3 := (p2.stringID periodUnit).2
  let p4 := (p3.stringID dropFrames).2
  (p4.stringID keepFrames).2

end CppProfile

/-! ## The agent poll loop (`src/profiler.ts` `Profiler.createProfile`)

`createProfile` issues one POLL; on a non-2xx response it consults
`isRetriableResponseCode`, on a transport error `isRetriableError`; if
retriable it waits `backoffMillis` and re-issues the POLL, otherwise it
throws.  On a 2xx response it returns the response body.  The sequence of
attempt outcomes the network would produce is modelled as an explicit list;
an empty list means the run is still polling (`stillPolling`). -/

/-- Body of a `CreateProfile` response (`RequestProfile`); only carried
through, never inspected by the retry logic. -/
structure RequestProfile where
  name : String
  profileType : String
  deriving DecidableEq

/-- `isErrorResponseCode`: true when the status code is not 2xx. -/
def isErrorResponseCode (code : Nat) : Bool :=
  code < 200 || 300 ≤ code

/-- `isRetriableResponseCode`: the current contract retries on every status
code (`return true`). -/
def isRetriableResponseCode (_code : Nat) : Bool :=
  true

/-- `isRetriableError`: the current contract retries on every transport
error (`return true`). -/
def isRetriableError : Bool :=
  true

/-- One outcome of a single POLL attempt: either an HTTP reply (any status
code) or a transport error (the `catch` branch). -/
inductive Attempt where
  | reply (statusCode : Nat) (body : RequestProfile)
  | failure (message : String)
  deriving DecidableEq

/-- Result of running `createProfile` against a finite list of attempt
outcomes: `ok body totalDelayMillis polls` when some attempt returned 2xx
(`polls` counts the POLLs issued, `totalDelayMillis` the accumulated
`delay(backoffMillis)` waits before the successful POLL), `thrown` when the
code would throw (`retryRequest` false), and `stillPolling` when the
modelled outcome list was exhausted with the loop still retrying. -/
inductive CreateProfileResult where
  | ok (body : RequestProfile) (totalDelayMillis : Nat) (polls : Nat)
  | thrown
  | stillPolling
  deriving DecidableEq

/-- Account for one failed attempt followed by `await delay(backoffMillis)`
and the recursive `createProfile()` call. -/
def afterRetry (backoffMillis : Nat) :
    CreateProfileResult → CreateProfileResult
  | .ok body d n => .ok body (d + backoffMillis) (n + 1)
  | .thrown => .thrown
  | .stillPolling => .stillPolling

/-- `Profiler.createProfile` (lines 175-216), run against a list of attempt
outcomes.  A 2xx reply returns its body; an error reply retries iff
`isRetriableResponseCode`, a transport error retries iff the `catch` guard
`isRetriableError(err) || isRetriableResponseCode(err.statusCode)` holds;
each retry waits `backoffMillis` first. -/
def createProfile (backoffMillis : Nat) :
    List Attempt → CreateProfileResult
  | [] => .stillPolling
  | .reply code body :: rest =>
      if isErrorResponseCode code then
        if isRetriableResponseCode code then
          afterRetry backoffMillis (createProfile backoffMillis rest)
        else .thrown
      else .ok body 0 1
  | .failure _ :: rest =>
      if isRetriableError || isRetriableResponseCode 0 then
        afterRetry backoffMillis (createProfile backoffMillis rest)
      else .thrown

/-! ## Recursive reformulation of the worklist loop

The worklist of `serialize` is LIFO (`entries.pop()` takes the most recently
pushed entry), so the loop is equivalent to a depth-first traversal that
visits the children of each node in reverse source order.  `dfsNode`/
`dfsList` state that traversal recursively; the equivalence with
`serializeLoop` is proved below and used to reason by structural
induction. -/

theorem sizeOf_children_lt {α : Type} [SizeOf α] (n : PNode α) :
    sizeOf n.children < sizeOf n := by
  cases n with
  | mk a b c d e p cs =>
      simp only [PNode.children, PNode.mk.sizeOf_spec]
      omega

mutual

/-- Process one node: intern its location, extend the stack, append its
samples, then descend into the children (in reverse source order, matching
the LIFO worklist). -/
def dfsNode {α : Type} (append : AppendEntryToSamples α) (node : PNode α)
    (stack : List Nat) (st : SerState) : SerState :=
  let p := getLocation st node
  let ns := p.1.id :: stack
  let st2 := { p.2 with samples := append node ns p.2.samples }
  dfsList append node.children ns st2
  termination_by sizeOf node
  decreasing_by
    exact sizeOf_children_lt node

/-- Process a list of sibling nodes right-to-left (the last `push`ed entry
is `pop`ped first). -/
def dfsList {α : Type} (append : AppendEntryToSamples α) :
    List (PNode α) → List Nat → SerState → SerState
  | [], _, st => st
  | c :: cs, stack, st =>
      dfsNode append c stack (dfsList append cs stack st)
  termination_by cs _ _ => sizeOf cs
  decreasing_by
    · simp only [List.cons.sizeOf_spec]; omega
    · simp only [List.cons.sizeOf_spec]; omega

end

/-! ## Spec-side tree functions -/

mutual

/-- All nodes of a subtree, the subtree's root included. -/
def allNodes {α : Type} (n : PNode α) : List (PNode α) :=
  n :: allNodesList n.children
  termination_by sizeOf n
  decreasing_by
    exact sizeOf_children_lt n

/-- All nodes of a forest. -/
def allNodesList {α : Type} : List (PNode α) → List (PNode α)
  | [] => []
  | c :: cs => allNodes c ++ allNodesList cs
  termination_by cs => sizeOf cs
  decreasing_by
    · simp only [List.cons.sizeOf_spec]; omega
    · simp only [List.cons.sizeOf_spec]; omega

end

mutual

/-- All leaf-first ancestor chains of a subtree: for every node `m` in the
subtree rooted at `n`, the list `m :: (ancestors of m up to n) ++ anc`.  The
serializer's samples carry the location ids of exactly these chains, with
`anc = []` for the children of the (excluded) root. -/
def nodeChains {α : Type} (n : PNode α) (anc : List (PNode α)) :
    List (List (PNode α)) :=
  (n :: anc) :: listChains n.children (n :: anc)
  termination_by sizeOf n
  decreasing_by
    exact sizeOf_children_lt n

/-- Chains of a forest of siblings under the common ancestor list `anc`. -/
def listChains {α : Type} :
    List (PNode α) → List (PNode α) → List (List (PNode α))
  | [], _ => []
  | c :: cs, anc => nodeChains c anc ++ listChains cs anc
  termination_by cs _ => sizeOf cs
  decreasing_by
    · simp only [List.cons.sizeOf_spec]; omega
    · simp only [List.cons.sizeOf_spec]; omega

end

mutual

/-- Erase the payloads of a tree, keeping the location-relevant fields and
the shape.  Two trees with the same `strip` differ at most in which nodes
carry samples. -/
def strip {α : Type} : PNode α → PNode Unit
  | .mk n sn si ln cn _ cs => .mk n sn si ln cn () (stripList cs)
  termination_by n => sizeOf n
  decreasing_by
    simp only [PNode.mk.sizeOf_spec]; omega

/-- `strip` on a forest. -/
def stripList {α : Type} : List (PNode α) → List (PNode Unit)
  | [] => []
  | c :: cs => strip c :: stripList cs
  termination_by cs => sizeOf cs
  decreasing_by
    · simp only [List.cons.sizeOf_spec]; omega
    · simp only [List.cons.sizeOf_spec]; omega

end

mutual

/-- Processing the top worklist entry is `dfsNode` on it. -/
theorem serializeLoop_cons {α : Type} (append : AppendEntryToSamples α)
    (n : PNode α) (stack : List Nat) (rest : List (SEntry α))
    (st : SerState) :
    serializeLoop append (⟨n, stack⟩ :: rest) st
      = serializeLoop append rest (dfsNode append n stack st) := by
  rw [serializeLoop, dfsNode]
  exact serializeLoop_block append n.children _ rest _
  termination_by sizeOf n
  decreasing_by
    exact sizeOf_children_lt n

/-- Pushing a reversed block of sibling entries and continuing is `dfsList`
on the siblings. -/
theorem serializeLoop_block {α : Type} (append : AppendEntryToSamples α)
    (cs : List (PNode α)) (stack : List Nat) (rest : List (SEntry α))
    (st : SerState) :
    serializeLoop append ((cs.map fun c => SEntry.mk c stack).reverse ++ rest)
        st
      = serializeLoop append rest (dfsList append cs stack st) := by
  match cs with
  | [] => rw [dfsList]; rfl
  | c :: cs =>
      rw [dfsList]
      have h1 : ((c :: cs).map fun c => SEntry.mk c stack).reverse ++ rest
          = ((cs.map fun c => SEntry.mk c stack).reverse
              ++ (⟨c, stack⟩ :: rest)) := by
        simp
      rw [h1, serializeLoop_block append cs stack (⟨c, stack⟩ :: rest) st,
        serializeLoop_cons append c stack rest]
  termination_by sizeOf cs
  decreasing_by
    · simp only [List.cons.sizeOf_spec]; omega
    · simp only [List.cons.sizeOf_spec]; omega

end

/-- Entering `serialize`'s loop is `dfsList` over the root's children with
empty stacks. -/
theorem serializeLoop_initEntries {α : Type} (append : AppendEntryToSamples α)
    (root : PNode α) (st : SerState) :
    serializeLoop append (initEntries root) st
      = dfsList append root.children [] st := by
  have h := serializeLoop_block append root.children [] [] st
  simpa [initEntries, serializeLoop] using h

/-! ## Association-list lemmas -/

theorem alookup_append {κ ν : Type} [DecidableEq κ]
    (m b : List (κ × ν)) (k : κ) :
    alookup (m ++ b) k
      = match alookup m k with
        | some v => some v
        | none => alookup b k := by
  induction m with
  | nil => simp [alookup]
  | cons kv m ih =>
      obtain ⟨k', v'⟩ := kv
      by_cases h : k' = k <;> simp [alookup, h, ih]

theorem alookup_append_of_some {κ ν : Type} [DecidableEq κ]
    {m : List (κ × ν)} {k : κ} {v : ν} (b : List (κ × ν))
    (h : alookup m k = some v) :
    alookup (m ++ b) k = some v := by
  rw [alookup_append, h]

theorem alookup_append_of_none {κ ν : Type} [DecidableEq κ]
    {m : List (κ × ν)} {k : κ} (b : List (κ × ν))
    (h : alookup m k = none) :
    alookup (m ++ b) k = alookup b k := by
  rw [alookup_append, h]

theorem alookup_mem {κ ν : Type} [DecidableEq κ]
    {m : List (κ × ν)} {k : κ} {v : ν} (h : alookup m k = some v) :
    (k, v) ∈ m := by
  induction m with
  | nil => simp [alookup] at h
  | cons kv m ih =>
      obtain ⟨k', v'⟩ := kv
      by_cases hk : k' = k
      · subst hk
        simp [alookup] at h
        simp [h]
      · simp [alookup, hk] at h
        simp [ih h]

theorem alookup_isSome_of_mem {κ ν : Type} [DecidableEq κ]
    {m : List (κ × ν)} {k : κ} {v : ν} (h : (k, v) ∈ m) :
    (alookup m k).isSome := by
  induction m with
  | nil => simp at h
  | cons kv m ih =>
      obtain ⟨k', v'⟩ := kv
      rcases List.mem_cons.1 h with h1 | h1
      · cases h1
        simp [alookup]
      · by_cases hk : k' = k <;> simp [alookup, hk, ih h1]

/-! ## Extension relation: every serializer step only appends -/

/-- `st'` extends `st`: every array and map of the serializer state grows by
appending on the right. -/
structure SExt (st st' : SerState) : Prop where
  samples : ∃ a, st'.samples = st.samples ++ a
  locations : ∃ a, st'.locations = st.locations ++ a
  functions : ∃ a, st'.functions = st.functions ++ a
  fmap : ∃ a, st'.functionIdMap = st.functionIdMap ++ a
  lmap : ∃ a, st'.locationIdMap = st.locationIdMap ++ a
  strings : ∃ a, st'.stringTable.strings = st.stringTable.strings ++ a
  smap : ∃ a, st'.stringTable.stringsMap = st.stringTable.stringsMap ++ a

theorem SExt.refl (st : SerState) : SExt st st :=
  ⟨⟨[], by simp⟩, ⟨[], by simp⟩, ⟨[], by simp⟩, ⟨[], by simp⟩,
   ⟨[], by simp⟩, ⟨[], by simp⟩, ⟨[], by simp⟩⟩

theorem SExt.trans {s1 s2 s3 : SerState} (h1 : SExt s1 s2)
    (h2 : SExt s2 s3) : SExt s1 s3 := by
  obtain ⟨⟨a1, e1⟩, ⟨a2, e2⟩, ⟨a3, e3⟩, ⟨a4, e4⟩, ⟨a5, e5⟩, ⟨a6, e6⟩, ⟨a7, e7⟩⟩ := h1
  obtain ⟨⟨b1, f1⟩, ⟨b2, f2⟩, ⟨b3, f3⟩, ⟨b4, f4⟩, ⟨b5, f5⟩, ⟨b6, f6⟩, ⟨b7, f7⟩⟩ := h2
  exact ⟨⟨a1 ++ b1, by simp [f1, e1]⟩, ⟨a2 ++ b2, by simp [f2, e2]⟩,
    ⟨a3 ++ b3, by simp [f3, e3]⟩, ⟨a4 ++ b4, by simp [f4, e4]⟩,
    ⟨a5 ++ b5, by simp [f5, e5]⟩, ⟨a6 ++ b6, by simp [f6, e6]⟩,
    ⟨a7 ++ b7, by simp [f7, e7]⟩⟩

/-- Looked-up location ids survive any extension of the state. -/
theorem SExt.lmap_stable {st st' : SerState} (h : SExt st st')
    {k : LocKey} {v : Nat} (hl : alookup st.locationIdMap k = some v) :
    alookup st'.locationIdMap k = some v := by
  obtain ⟨a, ha⟩ := h.lmap
  rw [ha]
  exact alookup_append_of_some a hl

theorem getIndexOrAdd_strings (t : StringTable) (s : String) :
    ∃ a, (t.getIndexOrAdd s).2.strings = t.strings ++ a := by
  unfold StringTable.getIndexOrAdd
  cases alookup t.stringsMap s <;> simp

theorem getIndexOrAdd_smap (t : StringTable) (s : String) :
    ∃ a, (t.getIndexOrAdd s).2.stringsMap = t.stringsMap ++ a := by
  unfold StringTable.getIndexOrAdd
  cases alookup t.stringsMap s <;> simp

theorem getFunction_ext {α : Type} (st : SerState) (n : PNode α) :
    SExt st (getFunction st n).2 := by
  unfold getFunction
  cases h : alookup st.functionIdMap (funKey n) with
  | some id => exact SExt.refl st
  | none =>
      obtain ⟨a1, h1⟩ := getIndexOrAdd_strings st.stringTable n.name
      obtain ⟨b1, g1⟩ := getIndexOrAdd_smap st.stringTable n.name
      obtain ⟨a2, h2⟩ :=
        getIndexOrAdd_strings (st.stringTable.getIndexOrAdd n.name).2
          n.scriptName
      obtain ⟨b2, g2⟩ :=
        getIndexOrAdd_smap (st.stringTable.getIndexOrAdd n.name).2
          n.scriptName
      refine ⟨⟨[], by simp⟩, ⟨[], by simp⟩, ⟨_, rfl⟩, ⟨_, rfl⟩, ⟨[], by simp⟩,
        ⟨a1 ++ a2, ?_⟩, ⟨b1 ++ b2, ?_⟩⟩
      · simp [h2, h1]
      · simp [g2, g1]

theorem getFunction_samples {α : Type} (st : SerState) (n : PNode α) :
    (getFunction st n).2.samples = st.samples := by
  unfold getFunction
  cases alookup st.functionIdMap (funKey n) <;> simp

theorem SExt.push_location (st : SerState) (loc : Location) :
    SExt st { st with locations := st.locations ++ [loc] } :=
  ⟨⟨[], by simp⟩, ⟨[loc], rfl⟩, ⟨[], by simp⟩, ⟨[], by simp⟩, ⟨[], by simp⟩,
   ⟨[], by simp⟩, ⟨[], by simp⟩⟩

theorem SExt.push_lmap (st : SerState) (kv : LocKey × Nat) :
    SExt st { st with locationIdMap := st.locationIdMap ++ [kv] } :=
  ⟨⟨[], by simp⟩, ⟨[], by simp⟩, ⟨[], by simp⟩, ⟨[], by simp⟩, ⟨[kv], rfl⟩,
   ⟨[], by simp⟩, ⟨[], by simp⟩⟩

theorem getLocation_ext {α : Type} (st : SerState) (n : PNode α) :
    SExt st (getLocation st n).2 := by
  unfold getLocation getLine
  cases h : alookup st.locationIdMap (locKey n) with
  | some id => exact SExt.refl st
  | none =>
      exact SExt.trans (SExt.push_lmap st (locKey n, st.locations.length + 1))
        (SExt.trans (getFunction_ext _ n) (SExt.push_location _ _))

theorem getLocation_samples {α : Type} (st : SerState) (n : PNode α) :
    (getLocation st n).2.samples = st.samples := by
  unfold getLocation getLine
  cases alookup st.locationIdMap (locKey n) with
  | some id => simp
  | none => simp [getFunction_samples]

/-! ## Callback discipline

Both adapters' `AppendEntryToSamples` callbacks only push samples, and every
pushed sample carries exactly the entry's stack as its `locationId`. -/

/-- A callback is good when it appends zero or more samples, each carrying
the entry's stack. -/
def CallbackGood {α : Type} (append : AppendEntryToSamples α) : Prop :=
  ∀ node stack samples, ∃ ext, append node stack samples = samples ++ ext
    ∧ ∀ s ∈ ext, s.locationId = stack

theorem callbackGood_time (intervalMicros : Nat) :
    CallbackGood (appendTimeEntryToSamples intervalMicros) := by
  intro node stack samples
  unfold appendTimeEntryToSamples
  by_cases h : node.payload > 0
  · exact ⟨[⟨stack, [node.payload, node.payload * intervalMicros]⟩],
      by simp [h]⟩
  · exact ⟨[], by simp [h]⟩

theorem callbackGood_heap : CallbackGood appendHeapEntryToSamples := by
  intro node stack samples
  unfold appendHeapEntryToSamples
  by_cases h : node.payload.length > 0
  · refine ⟨node.payload.map fun alloc =>
      ⟨stack, [alloc.count, alloc.sizeBytes * alloc.count]⟩, by simp [h], ?_⟩
    intro s hs
    simp only [List.mem_map] at hs
    obtain ⟨a, _, rfl⟩ := hs
    rfl
  · exact ⟨[], by simp [h]⟩

mutual

theorem dfsNode_ext {α : Type} (append : AppendEntryToSamples α)
    (hgood : CallbackGood append) (n : PNode α) (stack : List Nat)
    (st : SerState) : SExt st (dfsNode append n stack st) := by
  rw [dfsNode]
  refine SExt.trans (SExt.trans (getLocation_ext st n) ?_)
    (dfsList_ext append hgood n.children _ _)
  obtain ⟨ext, he, -⟩ := hgood n ((getLocation st n).1.id :: stack)
    (getLocation st n).2.samples
  exact ⟨⟨ext, by simpa using he⟩, ⟨[], by simp⟩, ⟨[], by simp⟩,
    ⟨[], by simp⟩, ⟨[], by simp⟩, ⟨[], by simp⟩, ⟨[], by simp⟩⟩
  termination_by sizeOf n
  decreasing_by
    exact sizeOf_children_lt n

theorem dfsList_ext {α : Type} (append : AppendEntryToSamples α)
    (hgood : CallbackGood append) (cs : List (PNode α)) (stack : List Nat)
    (st : SerState) : SExt st (dfsList append cs stack st) := by
  match cs with
  | [] => rw [dfsList]; exact SExt.refl st
  | c :: cs =>
      rw [dfsList]
      exact SExt.trans (dfsList_ext append hgood cs stack st)
        (dfsNode_ext append hgood c stack _)
  termination_by sizeOf cs
  decreasing_by
    · simp only [List.cons.sizeOf_spec]; omega
    · simp only [List.cons.sizeOf_spec]; omega

end

theorem SExt.locations_le {st st' : SerState} (h : SExt st st') :
    st.locations.length ≤ st'.locations.length := by
  obtain ⟨a, ha⟩ := h.locations
  simp [ha]

theorem SExt.functions_le {st st' : SerState} (h : SExt st st') :
    st.functions.length ≤ st'.functions.length := by
  obtain ⟨a, ha⟩ := h.functions
  simp [ha]

theorem SExt.strings_le {st st' : SerState} (h : SExt st st') :
    st.stringTable.strings.length ≤ st'.stringTable.strings.length := by
  obtain ⟨a, ha⟩ := h.strings
  simp [ha]

/-! ## The structural invariant of the serializer state

Ids are positions plus one, intern-map values point into the arrays, string
indices point into the string table, and sample stacks point into the
location array. -/

/-- `f`-images of a list that equals `range' s` can be read off by
position. -/
theorem getD_map_range' {β : Type} (f : β → Nat) :
    ∀ (l : List β) (s i : Nat) (d : β),
      l.map f = List.range' s l.length → i < l.length →
      f (l.getD i d) = s + i := by
  intro l
  induction l with
  | nil => intro s i d _ hi; simp at hi
  | cons x l ih =>
      intro s i d h hi
      rw [List.length_cons, List.range'_succ] at h
      simp only [List.map_cons, List.cons.injEq] at h
      obtain ⟨hx, hl⟩ := h
      cases i with
      | zero => simpa using hx
      | succ i =>
          have hrec := ih (s + 1) i d hl (by simpa using hi)
          simp only [List.getD_cons_succ]
          omega

/-- Well-formedness of the serializer state, preserved by every step. -/
structure Inv (st : SerState) : Prop where
  fid : st.functions.map ProfileFunction.id
      = List.range' 1 st.functions.length
  lid : st.locations.map Location.id = List.range' 1 st.locations.length
  fmap : ∀ kv ∈ st.functionIdMap, 1 ≤ kv.2 ∧ kv.2 ≤ st.functions.length
  lmap : ∀ kv ∈ st.locationIdMap, 1 ≤ kv.2 ∧ kv.2 ≤ st.locations.length
  smap : ∀ kv ∈ st.stringTable.stringsMap,
      kv.2 < st.stringTable.strings.length
  sampB : ∀ s ∈ st.samples, ∀ l ∈ s.locationId,
      1 ≤ l ∧ l ≤ st.locations.length
  locB : ∀ loc ∈ st.locations, ∀ ln ∈ loc.line,
      1 ≤ ln.functionId ∧ ln.functionId ≤ st.functions.length
  funB : ∀ f ∈ st.functions, f.name < st.stringTable.strings.length
      ∧ f.systemName < st.stringTable.strings.length
      ∧ f.filename < st.stringTable.strings.length

theorem getIndexOrAdd_smap_wf (t : StringTable) (s : String)
    (h : ∀ kv ∈ t.stringsMap, kv.2 < t.strings.length) :
    ∀ kv ∈ (t.getIndexOrAdd s).2.stringsMap,
      kv.2 < (t.getIndexOrAdd s).2.strings.length := by
  unfold StringTable.getIndexOrAdd
  cases hl : alookup t.stringsMap s with
  | some loc => simpa using h
  | none =>
      intro kv hkv
      simp only [List.mem_append, List.mem_singleton] at hkv
      rcases hkv with hkv | hkv
      · have := h kv hkv
        simp
        omega
      · subst hkv
        simp

theorem getIndexOrAdd_idx_lt (t : StringTable) (s : String)
    (h : ∀ kv ∈ t.stringsMap, kv.2 < t.strings.length) :
    (t.getIndexOrAdd s).1 < (t.getIndexOrAdd s).2.strings.length := by
  unfold StringTable.getIndexOrAdd
  cases hl : alookup t.stringsMap s with
  | some loc => simpa using h _ (alookup_mem hl)
  | none => simp

theorem getIndexOrAdd_strings_le (t : StringTable) (s : String) :
    t.strings.length ≤ (t.getIndexOrAdd s).2.strings.length := by
  obtain ⟨a, ha⟩ := getIndexOrAdd_strings t s
  simp [ha]

/-- `getFunction` ignores and preserves the location array. -/
theorem getFunction_locations {α : Type} (st : SerState) (n : PNode α) :
    (getFunction st n).2.locations = st.locations := by
  unfold getFunction
  cases alookup st.functionIdMap (funKey n) <;> simp

/-- `getFunction` ignores and preserves the location intern map. -/
theorem getFunction_lmap {α : Type} (st : SerState) (n : PNode α) :
    (getFunction st n).2.locationIdMap = st.locationIdMap := by
  unfold getFunction
  cases alookup st.functionIdMap (funKey n) <;> simp

/-- `getFunction` commutes with replacing the location intern map. -/
theorem getFunction_lmap_comm {α : Type} (st : SerState) (n : PNode α)
    (X : List (LocKey × Nat)) :
    getFunction { st with locationIdMap := X } n
      = ((getFunction st n).1,
         { (getFunction st n).2 with locationIdMap := X }) := by
  unfold getFunction
  cases alookup st.functionIdMap (funKey n) <;> rfl

/-- `getFunction` preserves the invariant and returns a function whose id is
positive, within the function array, and recorded in the intern map. -/
theorem getFunction_spec {α : Type} (st : SerState) (n : PNode α)
    (hinv : Inv st) :
    Inv (getFunction st n).2
    ∧ 1 ≤ (getFunction st n).1.id
    ∧ (getFunction st n).1.id ≤ (getFunction st n).2.functions.length
    ∧ alookup (getFunction st n).2.functionIdMap (funKey n)
        = some (getFunction st n).1.id := by
  unfold getFunction
  cases hl : alookup st.functionIdMap (funKey n) with
  | some id =>
      have hmem := alookup_mem hl
      have hb := hinv.fmap _ hmem
      have hid : (st.functions.getD (id - 1) dfltFunction).id = 1 + (id - 1) :=
        getD_map_range' ProfileFunction.id st.functions 1 (id - 1) dfltFunction
          hinv.fid (by omega)
      have hid' : (st.functions.getD (id - 1) dfltFunction).id = id := by omega
      simp only [List.getD_eq_getElem?_getD] at hid'
      refine ⟨hinv, ?_, ?_, ?_⟩ <;> simp [hid', hl] <;> omega
  | none =>
      have hs1 := getIndexOrAdd_smap_wf st.stringTable n.name hinv.smap
      have hidx1 := getIndexOrAdd_idx_lt st.stringTable n.name hinv.smap
      have hs2 := getIndexOrAdd_smap_wf
        (st.stringTable.getIndexOrAdd n.name).2 n.scriptName hs1
      have hidx2 := getIndexOrAdd_idx_lt
        (st.stringTable.getIndexOrAdd n.name).2 n.scriptName hs1
      have hle1 := getIndexOrAdd_strings_le st.stringTable n.name
      have hle2 := getIndexOrAdd_strings_le
        (st.stringTable.getIndexOrAdd n.name).2 n.scriptName
      simp only
      refine ⟨?_, by simp, by simp, ?_⟩
      · refine ⟨?_, by simpa using hinv.lid, ?_, ?_, by simpa using hs2, ?_,
          ?_, ?_⟩
        · have harith : 1 + 1 * st.functions.length
              = st.functions.length + 1 := by ring
          simp [List.range'_concat, harith, hinv.fid]
          omega
        · intro kv hkv
          simp only [List.mem_append, List.mem_singleton] at hkv
          rcases hkv with hkv | hkv
          · have := hinv.fmap _ hkv
            simp
            omega
          · subst hkv
            simp
        · intro kv hkv
          have := hinv.lmap _ hkv
          simpa using this
        · intro s hs
          have := hinv.sampB _ hs
          simpa using this
        · intro loc hloc ln hln
          have := hinv.locB _ (by simpa using hloc) _ hln
          simp
          omega
        · intro f hf
          simp only [List.mem_append, List.mem_singleton] at hf
          rcases hf with hf | hf
          · have := hinv.funB _ hf
            simp
            omega
          · subst hf
            simp
            omega
      · rw [alookup_append_of_none _ hl]
        simp [alookup]

/-- `getLocation` preserves the invariant and returns a location whose id is
positive, within the location array, and recorded in the intern map. -/
theorem getLocation_spec {α : Type} (st : SerState) (n : PNode α)
    (hinv : Inv st) :
    Inv (getLocation st n).2
    ∧ 1 ≤ (getLocation st n).1.id
    ∧ (getLocation st n).1.id ≤ (getLocation st n).2.locations.length
    ∧ alookup (getLocation st n).2.locationIdMap (locKey n)
        = some (getLocation st n).1.id := by
  unfold getLocation getLine
  cases hl : alookup st.locationIdMap (locKey n) with
  | some id =>
      have hmem := alookup_mem hl
      have hb := hinv.lmap _ hmem
      have hid : (st.locations.getD (id - 1) dfltLocation).id = 1 + (id - 1) :=
        getD_map_range' Location.id st.locations 1 (id - 1) dfltLocation
          hinv.lid (by omega)
      have hid' : (st.locations.getD (id - 1) dfltLocation).id = id := by omega
      simp only [List.getD_eq_getElem?_getD] at hid'
      refine ⟨hinv, ?_, ?_, ?_⟩ <;> simp [hid', hl] <;> omega
  | none =>
      simp only [getFunction_lmap_comm]
      obtain ⟨hginv, hgid1, hgid2, hglook⟩ := getFunction_spec st n hinv
      have hgext := getFunction_ext st n
      have hgloc := getFunction_locations st n
      refine ⟨?_, by simp, by simp [hgloc], ?_⟩
      · refine ⟨by simpa using hginv.fid, ?_, ?_, ?_, by simpa using hginv.smap,
          ?_, ?_, by simpa using hginv.funB⟩
        · have harith : 1 + 1 * st.locations.length
              = st.locations.length + 1 := by ring
          simp [hgloc, List.range'_concat, harith, hinv.lid]
          omega
        · intro kv hkv
          have := hginv.fmap _ (by simpa using hkv)
          simpa using this
        · intro kv hkv
          simp only [List.mem_append, List.mem_singleton] at hkv
          rcases hkv with hkv | hkv
          · have := hinv.lmap _ hkv
            simp [hgloc]
            omega
          · subst hkv
            simp [hgloc]
        · intro s hs
          have hsmp : s ∈ st.samples := by
            have := getFunction_samples st n
            simpa [this] using hs
          intro l hlmem
          have := hinv.sampB _ hsmp _ hlmem
          simp [hgloc]
          omega
        · intro loc hloc ln hln
          simp only [List.mem_append, List.mem_singleton] at hloc
          rcases hloc with hloc | hloc
          · have := hginv.locB _ (by simpa [hgloc] using hloc) _ hln
            simpa using this
          · subst hloc
            simp only [List.mem_singleton] at hln
            subst hln
            exact ⟨hgid1, hgid2⟩
      · rw [alookup_append_of_none _ hl]
        simp [alookup]

/-- Stack bounds persist when the state grows. -/
theorem stackBound_mono {st st' : SerState} (h : SExt st st')
    {stack : List Nat}
    (hs : ∀ l ∈ stack, 1 ≤ l ∧ l ≤ st.locations.length) :
    ∀ l ∈ stack, 1 ≤ l ∧ l ≤ st'.locations.length := by
  intro l hl
  have := hs l hl
  have hle := h.locations_le
  omega

mutual

/-- `dfsNode` preserves the invariant when the stack it receives is within
bounds and the callback is well-behaved. -/
theorem dfsNode_inv {α : Type} (append : AppendEntryToSamples α)
    (hgood : CallbackGood append) (n : PNode α) (stack : List Nat)
    (st : SerState) (hinv : Inv st)
    (hstack : ∀ l ∈ stack, 1 ≤ l ∧ l ≤ st.locations.length) :
    Inv (dfsNode append n stack st) := by
  rw [dfsNode]
  obtain ⟨hinv1, hid1, hid2, _⟩ := getLocation_spec st n hinv
  have hext1 := getLocation_ext st n
  set p := getLocation st n with hp
  obtain ⟨ext, he, hext⟩ := hgood n (p.1.id :: stack) p.2.samples
  refine dfsList_inv append hgood n.children _ _ ?_ ?_
  · refine ⟨hinv1.fid, hinv1.lid, hinv1.fmap, hinv1.lmap, hinv1.smap, ?_,
      hinv1.locB, hinv1.funB⟩
    intro s hs
    simp only [he, List.mem_append] at hs
    rcases hs with hs | hs
    · exact hinv1.sampB _ hs
    · intro l hlmem
      rw [hext s hs] at hlmem
      simp only [List.mem_cons] at hlmem
      rcases hlmem with rfl | hlmem
      · exact ⟨hid1, hid2⟩
      · exact stackBound_mono hext1 hstack l hlmem
  · intro l hlmem
    simp only [List.mem_cons] at hlmem
    rcases hlmem with rfl | hlmem
    · exact ⟨hid1, hid2⟩
    · exact stackBound_mono hext1 hstack l hlmem
  termination_by sizeOf n
  decreasing_by
    exact sizeOf_children_lt n

/-- `dfsList` preserves the invariant. -/
theorem dfsList_inv {α : Type} (append : AppendEntryToSamples α)
    (hgood : CallbackGood append) (cs : List (PNode α)) (stack : List Nat)
    (st : SerState) (hinv : Inv st)
    (hstack : ∀ l ∈ stack, 1 ≤ l ∧ l ≤ st.locations.length) :
    Inv (dfsList append cs stack st) := by
  match cs with
  | [] => rw [dfsList]; exact hinv
  | c :: cs =>
      rw [dfsList]
      exact dfsNode_inv append hgood c stack _
        (dfsList_inv append hgood cs stack st hinv hstack)
        (stackBound_mono (dfsList_ext append hgood cs stack st) hstack)
  termination_by sizeOf cs
  decreasing_by
    · simp only [List.cons.sizeOf_spec]; omega
    · simp only [List.cons.sizeOf_spec]; omega

end

/-- The state `serialize` starts from satisfies the invariant, for any
string table whose map is within bounds. -/
theorem inv_initState (t : StringTable)
    (h : ∀ kv ∈ t.stringsMap, kv.2 < t.strings.length) :
    Inv (initState t) := by
  refine ⟨rfl, rfl, ?_, ?_, h, ?_, ?_, ?_⟩ <;> simp [initState]

theorem timeInitTable_smap_wf :
    ∀ kv ∈ timeInitTable.stringsMap, kv.2 < timeInitTable.strings.length := by
  decide

theorem heapInitTable_smap_wf :
    ∀ kv ∈ heapInitTable.stringsMap, kv.2 < heapInitTable.strings.length := by
  decide

/-- The profile built by `serializeTimeProfile` carries the fields of the
final loop state. -/
theorem serializeTimeProfile_eq (prof : TimeProfile) (intervalMicros : Nat) :
    serializeTimeProfile prof intervalMicros
      = { sampleType := [⟨1, 2⟩, ⟨3, 4⟩],
          timeNanos := prof.startTime * 1000 * 1000,
          durationNanos := (prof.endTime - prof.startTime) * 1000 * 1000,
          periodType := ⟨3, 4⟩,
          period := intervalMicros,
          sample := (timeSerState prof intervalMicros).samples,
          location := (timeSerState prof intervalMicros).locations,
          functions := (timeSerState prof intervalMicros).functions,
          stringTable :=
            (timeSerState prof intervalMicros).stringTable.strings } :=
  rfl

/-- The profile built by `serializeHeapProfile` carries the fields of the
final loop state. -/
theorem serializeHeapProfile_eq (prof : PNode (List Allocation))
    (startTimeNanos durationNanos : Int) (intervalBytes : Nat) :
    serializeHeapProfile prof startTimeNanos durationNanos intervalBytes
      = { sampleType := [⟨1, 2⟩, ⟨3, 4⟩],
          timeNanos := startTimeNanos,
          durationNanos := durationNanos,
          periodType := ⟨3, 4⟩,
          period := intervalBytes,
          sample := (heapSerState prof).samples,
          location := (heapSerState prof).locations,
          functions := (heapSerState prof).functions,
          stringTable := (heapSerState prof).stringTable.strings } :=
  rfl

/-- The final state of the time serializer satisfies the invariant. -/
theorem timeSerState_inv (prof : TimeProfile) (intervalMicros : Nat) :
    Inv (timeSerState prof intervalMicros) := by
  rw [timeSerState, serializeLoop_initEntries]
  exact dfsList_inv _ (callbackGood_time intervalMicros) _ _ _
    (inv_initState _ timeInitTable_smap_wf) (by simp)

/-- The final state of the heap serializer satisfies the invariant. -/
theorem heapSerState_inv (prof : PNode (List Allocation)) :
    Inv (heapSerState prof) := by
  rw [heapSerState, serializeLoop_initEntries]
  exact dfsList_inv _ callbackGood_heap _ _ _
    (inv_initState _ heapInitTable_smap_wf) (by simp)

theorem timeSerState_strings_len (prof : TimeProfile) (intervalMicros : Nat) :
    5 ≤ (timeSerState prof intervalMicros).stringTable.strings.length := by
  rw [timeSerState, serializeLoop_initEntries]
  have h := (dfsList_ext _ (callbackGood_time intervalMicros)
    prof.topDownRoot.children [] (initState timeInitTable)).strings_le
  simpa [initState, timeInitTable, StringTable.new, StringTable.getIndexOrAdd,
    createSampleValueType, createTimeValueType, alookup] using h

theorem heapSerState_strings_len (prof : PNode (List Allocation)) :
    5 ≤ (heapSerState prof).stringTable.strings.length := by
  rw [heapSerState, serializeLoop_initEntries]
  have h := (dfsList_ext _ callbackGood_heap
    prof.children [] (initState heapInitTable)).strings_le
  simpa [initState, heapInitTable, StringTable.new, StringTable.getIndexOrAdd,
    createSampleValueType, createAllocationValueType, alookup] using h

/-- The well-formedness properties claimed for every serialized profile:
ids are positions plus one (so id `0` is never assigned), sample stacks
point into the location array, location lines point into the function
array, and the string indices of `sampleType` and `function` entries point
into the string table.  (`Location` entries carry no string indices.) -/
def ProfileWellFormed (P : IProfile) : Prop :=
  P.functions.map ProfileFunction.id = List.range' 1 P.functions.length
  ∧ P.location.map Location.id = List.range' 1 P.location.length
  ∧ (∀ s ∈ P.sample, ∀ l ∈ s.locationId, 1 ≤ l ∧ l ≤ P.location.length)
  ∧ (∀ loc ∈ P.location, ∀ ln ∈ loc.line,
      1 ≤ ln.functionId ∧ ln.functionId ≤ P.functions.length)
  ∧ (∀ vt ∈ P.sampleType,
      vt.type < P.stringTable.length ∧ vt.unit < P.stringTable.length)
  ∧ (∀ f ∈ P.functions, f.name < P.stringTable.length
      ∧ f.systemName < P.stringTable.length
      ∧ f.filename < P.stringTable.length)

/-- C1: in every profile built by `serializeTimeProfile` or
`serializeHeapProfile`, function and location ids equal their position in
the respective table plus one (id `0` is never assigned), every
`locationId` in any sample lies in `[1, number of locations]`, every
`functionId` in any location's `Line` lies in `[1, number of functions]`,
and every string index used by `sampleType` or `function` entries lies in
`[0, length of the string table)` (`location` entries carry no string
indices). -/
theorem c1_serializer_id_and_index_invariants
    (prof : TimeProfile) (intervalMicros : Nat)
    (hp : PNode (List Allocation)) (startTimeNanos durationNanos : Int)
    (intervalBytes : Nat) :
    ProfileWellFormed (serializeTimeProfile prof intervalMicros)
    ∧ ProfileWellFormed
        (serializeHeapProfile hp startTimeNanos durationNanos
          intervalBytes) := by
  constructor
  · have hinv := timeSerState_inv prof intervalMicros
    have hlen := timeSerState_strings_len prof intervalMicros
    rw [serializeTimeProfile_eq]
    refine ⟨hinv.fid, hinv.lid, hinv.sampB, hinv.locB, ?_, ?_⟩
    · intro vt hvt
      simp only [List.mem_cons, List.not_mem_nil, or_false] at hvt
      rcases hvt with rfl | rfl <;> constructor <;> simp <;> omega
    · intro f hf
      have := hinv.funB _ hf
      simpa using this
  · have hinv := heapSerState_inv hp
    have hlen := heapSerState_strings_len hp
    rw [serializeHeapProfile_eq]
    refine ⟨hinv.fid, hinv.lid, hinv.sampB, hinv.locB, ?_, ?_⟩
    · intro vt hvt
      simp only [List.mem_cons, List.not_mem_nil, or_false] at hvt
      rcases hvt with rfl | rfl <;> constructor <;> simp <;> omega
    · intro f hf
      have := hinv.funB _ hf
      simpa using this

/-! ## C9: the string table starts with the empty string -/

theorem timeSerState_strings_head (prof : TimeProfile)
    (intervalMicros : Nat) :
    (timeSerState prof intervalMicros).stringTable.strings.head?
      = some "" := by
  rw [timeSerState, serializeLoop_initEntries]
  obtain ⟨a, ha⟩ := (dfsList_ext _ (callbackGood_time intervalMicros)
    prof.topDownRoot.children [] (initState timeInitTable)).strings
  rw [ha]
  rfl

theorem heapSerState_strings_head (prof : PNode (List Allocation)) :
    (heapSerState prof).stringTable.strings.head? = some "" := by
  rw [heapSerState, serializeLoop_initEntries]
  obtain ⟨a, ha⟩ := (dfsList_ext _ callbackGood_heap
    prof.children [] (initState heapInitTable)).strings
  rw [ha]
  rfl

/-- `Profile::stringID` preserves the head of the C++ string table. -/
theorem cpp_stringID_head {p : CppProfile} {x : String}
    (h : p.strings.head? = some x) (s : String) :
    (p.stringID s).2.strings.head? = some x := by
  unfold CppProfile.stringID
  cases alookup p.stringIDMap s with
  | some id => exact h
  | none =>
      cases hp : p.strings with
      | nil => rw [hp] at h; simp at h
      | cons y t => rw [hp] at h; simpa using h

/-- C9: every profile built by the serializer has `""` at index 0 of its
string table — for every input tree, for both the WALL and the HEAP
serializer, and likewise for the C++ `Profile` constructor, which interns
`""` first. -/
theorem c9_stringTable_starts_empty
    (prof : TimeProfile) (intervalMicros : Nat)
    (hp : PNode (List Allocation)) (startTimeNanos durationNanos : Int)
    (intervalBytes : Nat) (periodType periodUnit dropFrames keepFrames : String) :
    (serializeTimeProfile prof intervalMicros).stringTable.head? = some ""
    ∧ (serializeHeapProfile hp startTimeNanos durationNanos
        intervalBytes).stringTable.head? = some ""
    ∧ (CppProfile.new periodType periodUnit dropFrames
        keepFrames).strings.head? = some "" := by
  refine ⟨?_, ?_, ?_⟩
  · rw [serializeTimeProfile_eq]
    exact timeSerState_strings_head prof intervalMicros
  · rw [serializeHeapProfile_eq]
    exact heapSerState_strings_head hp
  · unfold CppProfile.new
    exact cpp_stringID_head (cpp_stringID_head (cpp_stringID_head
      (cpp_stringID_head (by rfl) periodType) periodUnit) dropFrames)
      keepFrames

/-! ## C3: the WALL adapter emits one sample per hit node -/

/-- The head of a sample's `value` (its `value[0]`). -/
def valHead (s : Sample) : Nat := s.value.headD 0

/-- Sum of `value[0]` over a sample list. -/
def sumVal (l : List Sample) : Nat := (l.map valHead).sum

theorem sumVal_append (l₁ l₂ : List Sample) :
    sumVal (l₁ ++ l₂) = sumVal l₁ + sumVal l₂ := by
  simp [sumVal]

/-- Number of nodes with a positive hit count in a forest. -/
def hitCountNodes (cs : List (PNode Nat)) : Nat :=
  (allNodesList cs).countP fun m => decide (0 < m.payload)

/-- Sum of the hit counts over all nodes of a forest. -/
def hitCountSum (cs : List (PNode Nat)) : Nat :=
  ((allNodesList cs).map PNode.payload).sum

theorem allNodesList_cons {α : Type} (c : PNode α) (cs : List (PNode α)) :
    allNodesList (c :: cs) = allNodes c ++ allNodesList cs := by
  rw [allNodesList]

mutual

/-- Sample statistics of `dfsNode` under the WALL callback: one sample per
hit node, `value = [hitCount, hitCount * intervalMicros]`, and the sum law
per subtree. -/
theorem dfsNode_time_stats (intervalMicros : Nat) (n : PNode Nat)
    (stack : List Nat) (st : SerState) :
    (dfsNode (appendTimeEntryToSamples intervalMicros) n stack st).samples.length
        = st.samples.length
          + (allNodes n).countP (fun m => decide (0 < m.payload))
    ∧ sumVal (dfsNode (appendTimeEntryToSamples intervalMicros) n stack
          st).samples
        = sumVal st.samples + ((allNodes n).map PNode.payload).sum
    ∧ ∀ s ∈ (dfsNode (appendTimeEntryToSamples intervalMicros) n stack
          st).samples,
        s ∈ st.samples
        ∨ ∃ h, 0 < h ∧ s.value = [h, h * intervalMicros] := by
  rw [dfsNode]
  have hgs := getLocation_samples st n
  obtain ⟨hlen, hsum, hshape⟩ := dfsList_time_stats intervalMicros n.children
    ((getLocation st n).1.id :: stack)
    { (getLocation st n).2 with
      samples := appendTimeEntryToSamples intervalMicros n
        ((getLocation st n).1.id :: stack) (getLocation st n).2.samples }
  rw [allNodes]
  by_cases hpos : 0 < n.payload
  · constructor
    · rw [hlen]
      simp [appendTimeEntryToSamples, hpos, hgs, List.countP_cons]
      omega
    constructor
    · rw [hsum]
      simp [appendTimeEntryToSamples, hpos, hgs, sumVal_append, sumVal,
        valHead]
      omega
    · intro s hs
      rcases hshape s hs with hmem | hex
      · simp only [appendTimeEntryToSamples, hpos, if_pos, hgs,
          List.mem_append, List.mem_singleton] at hmem
        rcases hmem with hmem | rfl
        · exact Or.inl hmem
        · exact Or.inr ⟨n.payload, hpos, rfl⟩
      · exact Or.inr hex
  · constructor
    · rw [hlen]
      simp [appendTimeEntryToSamples, hpos, hgs, List.countP_cons]
    constructor
    · rw [hsum]
      have hz : n.payload = 0 := by omega
      simp [appendTimeEntryToSamples, hpos, hgs, hz]
    · intro s hs
      rcases hshape s hs with hmem | hex
      · simp only [appendTimeEntryToSamples, hpos, if_neg, hgs,
          not_false_iff] at hmem
        exact Or.inl hmem
      · exact Or.inr hex
  termination_by sizeOf n
  decreasing_by
    exact sizeOf_children_lt n

/-- Sample statistics of `dfsList` under the WALL callback. -/
theorem dfsList_time_stats (intervalMicros : Nat) (cs : List (PNode Nat))
    (stack : List Nat) (st : SerState) :
    (dfsList (appendTimeEntryToSamples intervalMicros) cs stack st).samples.length
        = st.samples.length
          + (allNodesList cs).countP (fun m => decide (0 < m.payload))
    ∧ sumVal (dfsList (appendTimeEntryToSamples intervalMicros) cs stack
          st).samples
        = sumVal st.samples + ((allNodesList cs).map PNode.payload).sum
    ∧ ∀ s ∈ (dfsList (appendTimeEntryToSamples intervalMicros) cs stack
          st).samples,
        s ∈ st.samples
        ∨ ∃ h, 0 < h ∧ s.value = [h, h * intervalMicros] := by
  match cs with
  | [] =>
      rw [dfsList, allNodesList]
      exact ⟨by simp, by simp, fun s hs => Or.inl hs⟩
  | c :: cs =>
      rw [dfsList, allNodesList_cons]
      obtain ⟨hlen1, hsum1, hshape1⟩ :=
        dfsList_time_stats intervalMicros cs stack st
      obtain ⟨hlen2, hsum2, hshape2⟩ := dfsNode_time_stats intervalMicros c
        stack (dfsList (appendTimeEntryToSamples intervalMicros) cs stack st)
      refine ⟨?_, ?_, ?_⟩
      · rw [hlen2, hlen1]
        simp [List.countP_append]
        omega
      · rw [hsum2, hsum1]
        simp
        omega
      · intro s hs
        rcases hshape2 s hs with hmem | hex
        · exact hshape1 s hmem
        · exact Or.inr hex
  termination_by sizeOf cs
  decreasing_by
    · simp only [List.cons.sizeOf_spec]; omega
    · simp only [List.cons.sizeOf_spec]; omega

end

/-- C3: `serializeTimeProfile` emits exactly one sample per node with
`hitCount > 0`, each with `value = [hitCount, hitCount * intervalMicros]`,
and the sum of `value[0]` over all samples equals the sum of `hitCount`
over all nodes of the input tree except the root (which is never
visited). -/
theorem c3_wall_one_sample_per_hit_node_and_sum_law
    (prof : TimeProfile) (intervalMicros : Nat) :
    (serializeTimeProfile prof intervalMicros).sample.length
        = hitCountNodes prof.topDownRoot.children
    ∧ sumVal (serializeTimeProfile prof intervalMicros).sample
        = hitCountSum prof.topDownRoot.children
    ∧ ∀ s ∈ (serializeTimeProfile prof intervalMicros).sample,
        ∃ h, 0 < h ∧ s.value = [h, h * intervalMicros] := by
  rw [serializeTimeProfile_eq]
  have hrw : timeSerState prof intervalMicros
      = dfsList (appendTimeEntryToSamples intervalMicros)
          prof.topDownRoot.children [] (initState timeInitTable) := by
    rw [timeSerState, serializeLoop_initEntries]
  obtain ⟨hlen, hsum, hshape⟩ := dfsList_time_stats intervalMicros
    prof.topDownRoot.children [] (initState timeInitTable)
  refine ⟨?_, ?_, ?_⟩
  · rw [hrw, hlen]
    simp [initState, hitCountNodes]
  · rw [hrw, hsum]
    simp [initState, sumVal, hitCountSum]
  · intro s hs
    rw [hrw] at hs
    rcases hshape s hs with hmem | hex
    · simp [initState] at hmem
    · exact hex

/-! ## C7: interning is idempotent -/

/-- Second `getIndexOrAdd` with the same string: same index, same table. -/
theorem getIndexOrAdd_idem (t : StringTable) (s : String) :
    (t.getIndexOrAdd s).2.getIndexOrAdd s = t.getIndexOrAdd s := by
  cases h : alookup t.stringsMap s with
  | some loc =>
      simp [StringTable.getIndexOrAdd, h]
  | none =>
      simp [StringTable.getIndexOrAdd, h, alookup_append_of_none, alookup]

/-- Second `getFunction` with the same node: same function, same state. -/
theorem getFunction_idem {α : Type} (st : SerState) (n : PNode α) :
    getFunction (getFunction st n).2 n = getFunction st n := by
  cases h : alookup st.functionIdMap (funKey n) with
  | some id =>
      simp [getFunction, h]
  | none =>
      simp only [getFunction, h]
      rw [alookup_append_of_none _ h]
      simp [alookup, List.getD_eq_getElem?_getD, List.getElem?_concat_length]

/-- Second `getLocation` with the same node: same location, same state. -/
theorem getLocation_idem {α : Type} (st : SerState) (n : PNode α) :
    getLocation (getLocation st n).2 n = getLocation st n := by
  cases h : alookup st.locationIdMap (locKey n) with
  | some id =>
      simp [getLocation, h]
  | none =>
      simp only [getLocation, getLine, getFunction_lmap_comm, h]
      rw [alookup_append_of_none _ h]
      simp [alookup, getFunction_locations, List.getD_eq_getElem?_getD,
        List.getElem?_concat_length]

/-- C7: interning is idempotent.  A second `getFunction` call with the same
node returns the same id and leaves the function array's length unchanged;
likewise for `getLocation` (key `(scriptId, lineNumber, columnNumber,
name)`) and for the string table (keyed by exact string equality).  This
holds from any serializer state. -/
theorem c7_intern_idempotent {α : Type} (st : SerState) (n : PNode α)
    (t : StringTable) (s : String) :
    ((getFunction (getFunction st n).2 n).1.id = (getFunction st n).1.id
      ∧ (getFunction (getFunction st n).2 n).2.functions.length
          = (getFunction st n).2.functions.length)
    ∧ ((getLocation (getLocation st n).2 n).1.id = (getLocation st n).1.id
      ∧ (getLocation (getLocation st n).2 n).2.locations.length
          = (getLocation st n).2.locations.length)
    ∧ (((t.getIndexOrAdd s).2.getIndexOrAdd s).1 = (t.getIndexOrAdd s).1
      ∧ ((t.getIndexOrAdd s).2.getIndexOrAdd s).2.strings.length
          = (t.getIndexOrAdd s).2.strings.length) := by
  refine ⟨?_, ?_, ?_⟩
  · rw [getFunction_idem]
    exact ⟨rfl, rfl⟩
  · rw [getLocation_idem]
    exact ⟨rfl, rfl⟩
  · rw [getIndexOrAdd_idem]
    exact ⟨rfl, rfl⟩

/-! ## C8: every failed POLL is retried after the backoff -/

/-- An attempt the `createProfile` logic does not accept: an error-status
reply or a transport error. -/
def attemptFails : Attempt → Bool
  | .reply code _ => isErrorResponseCode code
  | .failure _ => true

/-- `createProfile` never throws: with the current
`isRetriableResponseCode`/`isRetriableError` (both constantly true), every
non-2xx response and every transport error is retried. -/
theorem createProfile_never_throws (backoffMillis : Nat) :
    ∀ attempts : List Attempt,
      createProfile backoffMillis attempts ≠ .thrown := by
  intro attempts
  induction attempts with
  | nil => simp [createProfile]
  | cons a rest ih =>
      cases a with
      | reply code body =>
          by_cases h : isErrorResponseCode code
          · simp only [createProfile, h, if_pos, isRetriableResponseCode,
              if_true]
            cases hr : createProfile backoffMillis rest <;>
              simp_all [afterRetry]
          · simp [createProfile, h]
      | failure m =>
          simp only [createProfile, isRetriableError,
            isRetriableResponseCode, Bool.true_or, if_true]
          cases hr : createProfile backoffMillis rest <;>
            simp_all [afterRetry]

/-- C8: a POLL whose first `k` attempts all end in a non-2xx response or a
transport error, followed by a 2xx response, issues exactly `k + 1` POLLs,
waits `backoffMillis` before each re-issue (total `backoffMillis * k`), and
returns the body of the 2xx response; moreover with the current contract
(every status code retriable) `createProfile` never throws. -/
theorem c8_poll_retries_until_2xx (backoffMillis : Nat)
    (pre : List Attempt) (code : Nat) (body : RequestProfile)
    (rest : List Attempt) (hpre : ∀ a ∈ pre, attemptFails a = true)
    (hok : isErrorResponseCode code = false) :
    createProfile backoffMillis (pre ++ Attempt.reply code body :: rest)
        = .ok body (backoffMillis * pre.length) (pre.length + 1)
    ∧ ∀ attempts : List Attempt,
        createProfile backoffMillis attempts ≠ .thrown := by
  refine ⟨?_, createProfile_never_throws backoffMillis⟩
  induction pre with
  | nil => simp [createProfile, hok]
  | cons a pre ih =>
      have hfail := hpre a (by simp)
      have hrec := ih fun b hb => hpre b (by simp [hb])
      cases a with
      | reply c b =>
          have hc : isErrorResponseCode c = true := hfail
          have hstep : createProfile backoffMillis
              ((Attempt.reply c b :: pre) ++ Attempt.reply code body :: rest)
                = afterRetry backoffMillis (createProfile backoffMillis
                    (pre ++ Attempt.reply code body :: rest)) := by
            simp [createProfile, hc, isRetriableResponseCode]
          rw [hstep, hrec]
          simp only [afterRetry, List.length_cons]
          congr 1
          try ring
      | failure m =>
          have hstep : createProfile backoffMillis
              ((Attempt.failure m :: pre) ++ Attempt.reply code body :: rest)
                = afterRetry backoffMillis (createProfile backoffMillis
                    (pre ++ Attempt.reply code body :: rest)) := by
            simp [createProfile, isRetriableError, isRetriableResponseCode]
          rw [hstep, hrec]
          simp only [afterRetry, List.length_cons]
          congr 1
          try ring

/-- Closed instance of the POLL retry law: two 503 replies and one
transport error, then a 200; four POLLs, three backoff waits. -/
theorem c8_poll_retries_until_2xx_witness :
    createProfile 1000
        [Attempt.reply 503 ⟨"", ""⟩, Attempt.failure "ECONNRESET",
         Attempt.reply 503 ⟨"", ""⟩,
         Attempt.reply 200 ⟨"projects/p/profiles/x", "WALL"⟩]
      = .ok ⟨"projects/p/profiles/x", "WALL"⟩ 3000 4 :=
  (c8_poll_retries_until_2xx 1000
    [Attempt.reply 503 ⟨"", ""⟩, Attempt.failure "ECONNRESET",
     Attempt.reply 503 ⟨"", ""⟩]
    200 ⟨"projects/p/profiles/x", "WALL"⟩ [] (by decide) (by decide)).1

/-! ## C4: the WALL adapter multiplies the start time by 1e6

`v8-types.ts` documents `startTime`/`endTime` as nanosecond timestamps, and
the spec requires `timeNanos = startTimeNanos`, but `serializeTimeProfile`
computes `timeNanos = prof.startTime * 1000 * 1000` and `durationNanos =
(prof.endTime - prof.startTime) * 1000 * 1000`. -/

/-- A failing input for the `timeNanos` claim: a profile that started at
1 ns and ended at 2 ns. -/
def c4Prof : TimeProfile :=
  ⟨1, 2, .mk "(root)" "" 0 0 0 0 [.mk "main" "main.js" 1 1 1 1 []]⟩

/-- C4 (code bug): on a tree whose `startTime`/`endTime` are the nanosecond
values 1 and 2, the built profile has `timeNanos = 1000000 ≠ startTime` and
`durationNanos = 1000000 ≠ endTime - startTime`: the code scales the
already-nanosecond timestamps by `1000 * 1000`. -/
theorem c4_timeNanos_scaled_by_1e6 :
    c4Prof.startTime = 1 ∧ c4Prof.endTime = 2
    ∧ (serializeTimeProfile c4Prof 1000).timeNanos = 1000000
    ∧ (serializeTimeProfile c4Prof 1000).durationNanos = 1000000
    ∧ (serializeTimeProfile c4Prof 1000).timeNanos ≠ c4Prof.startTime
    ∧ (serializeTimeProfile c4Prof 1000).durationNanos
        ≠ c4Prof.endTime - c4Prof.startTime := by
  rw [serializeTimeProfile_eq]
  refine ⟨rfl, rfl, by norm_num [c4Prof], by norm_num [c4Prof],
    by norm_num [c4Prof], by norm_num [c4Prof]⟩

/-! ## C6: fields of a newly allocated function entry

The TS `getFunction` and the C++ `Profile::functionID` agree on
`name`/`systemName`/`filename`, but only the C++ serializer sets
`startLine`; the TS constructor call omits it, leaving the proto3 default
`0`. -/

/-- `Profile::stringID` does not touch the function array. -/
theorem cpp_stringID_functions (p : CppProfile) (s : String) :
    (p.stringID s).2.functions = p.functions := by
  unfold CppProfile.stringID
  cases alookup p.stringIDMap s <;> simp

/-- On a miss, the TS `getFunction` allocates
`id = functions.length + 1` and pushes an entry with
`name = systemName = getIndexOrAdd(node.name)`,
`filename = getIndexOrAdd(node.scriptName)` and `startLine = 0` (the
constructor call sets no `startLine`). -/
theorem getFunction_miss_fields {α : Type} (st : SerState) (n : PNode α)
    (h : alookup st.functionIdMap (funKey n) = none) :
    (getFunction st n).1
        = { id := st.functions.length + 1,
            name := (st.stringTable.getIndexOrAdd n.name).1,
            systemName := (st.stringTable.getIndexOrAdd n.name).1,
            filename := ((st.stringTable.getIndexOrAdd n.name).2.getIndexOrAdd
              n.scriptName).1,
            startLine := 0 }
    ∧ (getFunction st n).2.functions
        = st.functions ++ [(getFunction st n).1] := by
  simp [getFunction, h]

/-- On a miss, the C++ `Profile::functionID` allocates
`id = function.size() + 1` and pushes
`ProfileFunction(id, nameX, nameX, filenameX, node.lineNumber())`. -/
theorem cpp_functionID_miss_fields {α : Type} (p : CppProfile) (n : PNode α)
    (h : alookup p.functionIDMap (funKey n) = none) :
    (p.functionID n).1 = p.functions.length + 1
    ∧ (p.functionID n).2.functions
        = p.functions
          ++ [⟨p.functions.length + 1, (p.stringID n.name).1,
              (p.stringID n.name).1,
              ((p.stringID n.name).2.stringID n.scriptName).1,
              n.lineNumber⟩] := by
  simp [CppProfile.functionID, h, cpp_stringID_functions]

/-- C6 counterexample input: a single node at line number 7. -/
def c6Prof : TimeProfile :=
  ⟨0, 10, .mk "(root)" "node.js" 0 0 0 0 [.mk "f" "f.js" 1 7 3 1 []]⟩

/-- C6 counterexample: the claim also asserts `startLine` equals the node's
line number for the TS function table, but `serializeTimeProfile` on a node
whose `lineNumber` is `7` produces a single function entry whose
`startLine` is `0`. -/
theorem c6_ts_startLine_zero_counterexample :
    (serializeTimeProfile c6Prof 5).functions.map ProfileFunction.startLine
        = [0]
    ∧ c6Prof.topDownRoot.children.map PNode.lineNumber = [7] := by
  constructor
  · simp [serializeTimeProfile, serialize, serializeLoop, initEntries,
      initState, getLocation, getFunction, getLine, alookup,
      StringTable.getIndexOrAdd, StringTable.new, createSampleValueType,
      createTimeValueType, appendTimeEntryToSamples, locKey, funKey, c6Prof,
      PNode.children, PNode.name, PNode.scriptName, PNode.scriptId,
      PNode.lineNumber, PNode.columnNumber, PNode.payload]
  · simp [c6Prof, PNode.children, PNode.lineNumber]

/-- C6 as amended: on a function-table miss the new entry always has
`nameIdx = systemNameIdx = stringTable.getOrAdd(name)` and
`filenameIdx = stringTable.getOrAdd(filename)`; `startLine` equals the
node's line number in the C++ serializer, while the TS serializer leaves it
at the proto3 default `0`. -/
theorem c6_new_function_entry_fields {α : Type} (st : SerState)
    (p : CppProfile) (n : PNode α)
    (hts : alookup st.functionIdMap (funKey n) = none)
    (hcpp : alookup p.functionIDMap (funKey n) = none) :
    ((getFunction st n).1.name = (st.stringTable.getIndexOrAdd n.name).1
      ∧ (getFunction st n).1.systemName
          = (st.stringTable.getIndexOrAdd n.name).1
      ∧ (getFunction st n).1.filename
          = ((st.stringTable.getIndexOrAdd n.name).2.getIndexOrAdd
              n.scriptName).1
      ∧ (getFunction st n).1.startLine = 0
      ∧ (getFunction st n).1.id = st.functions.length + 1)
    ∧ ((p.functionID n).2.functions.getLast?
        = some ⟨p.functions.length + 1, (p.stringID n.name).1,
            (p.stringID n.name).1,
            ((p.stringID n.name).2.stringID n.scriptName).1,
            n.lineNumber⟩) := by
  obtain ⟨h1, _⟩ := getFunction_miss_fields st n hts
  obtain ⟨_, h2⟩ := cpp_functionID_miss_fields p n hcpp
  refine ⟨⟨?_, ?_, ?_, ?_, ?_⟩, ?_⟩ <;> simp [h1, h2]

/-- Closed instance of the amended C6 on fresh states: interning the node
`f@f.js:7` allocates id 1, name index 5, filename index 6 in the TS table
(with `startLine` 0) and name index 1, filename index 2, `startLine` 7 in
the C++ table. -/
theorem c6_new_function_entry_fields_witness :
    (getFunction (initState timeInitTable)
        (.mk "f" "f.js" 1 7 3 (1 : Nat) [])).1.name = 5
    ∧ (getFunction (initState timeInitTable)
        (.mk "f" "f.js" 1 7 3 (1 : Nat) [])).1.systemName = 5
    ∧ (getFunction (initState timeInitTable)
        (.mk "f" "f.js" 1 7 3 (1 : Nat) [])).1.filename = 6
    ∧ (getFunction (initState timeInitTable)
        (.mk "f" "f.js" 1 7 3 (1 : Nat) [])).1.startLine = 0
    ∧ (getFunction (initState timeInitTable)
        (.mk "f" "f.js" 1 7 3 (1 : Nat) [])).1.id = 1
    ∧ ((⟨["", "t", "u"], [("", 0), ("t", 1), ("u", 2)], [], []⟩ :
          CppProfile).functionID
            (.mk "f" "f.js" 1 7 3 (1 : Nat) [])).2.functions.getLast?
      = some ⟨1, 3, 3, 4, 7⟩ := by
  have h := c6_new_function_entry_fields (initState timeInitTable)
    (⟨["", "t", "u"], [("", 0), ("t", 1), ("u", 2)], [], []⟩ : CppProfile)
    (.mk "f" "f.js" 1 7 3 (1 : Nat) []) (by decide) (by decide)
  obtain ⟨⟨h1, h2, h3, h4, h5⟩, h6⟩ := h
  exact ⟨by rw [h1]; decide, by rw [h2]; decide, by rw [h3]; decide,
    h4, by rw [h5]; decide, by rw [h6]; decide⟩

/-! ## C5: sibling visit order

`serialize`'s worklist is a LIFO stack: `entries.pop()` removes the most
recently pushed entry, and children are pushed in source order, so siblings
are *visited in reverse source order* — the claim asserts source order. -/

/-- A `dfsNode` on a leaf just interns the location and appends the node's
samples. -/
theorem dfsNode_leaf {α : Type} (append : AppendEntryToSamples α)
    (n : PNode α) (stack : List Nat) (st : SerState)
    (h : n.children = []) :
    dfsNode append n stack st
      = { (getLocation st n).2 with
          samples := append n ((getLocation st n).1.id :: stack)
            (getLocation st n).2.samples } := by
  rw [dfsNode, h, dfsList]

/-- The observable effect of a `getLocation` miss. -/
theorem getLocation_miss {α : Type} (st : SerState) (n : PNode α)
    (h : alookup st.locationIdMap (locKey n) = none) :
    (getLocation st n).1.id = st.locations.length + 1
    ∧ (getLocation st n).2.samples = st.samples
    ∧ (getLocation st n).2.locations.length = st.locations.length + 1
    ∧ (getLocation st n).2.locationIdMap
        = st.locationIdMap ++ [(locKey n, st.locations.length + 1)] := by
  simp [getLocation, getLine, h, getFunction_lmap_comm, getFunction_samples,
    getFunction_locations]

/-- C5 counterexample input: a root with two children in source order
`[a, b]`, with distinct names, script ids and lines, both with one hit. -/
def c5Prof : TimeProfile :=
  ⟨0, 10, .mk "(root)" "" 0 0 0 0
    [.mk "a" "a.js" 1 1 1 1 [], .mk "b" "b.js" 2 2 2 1 []]⟩

/-- C5 counterexample: with children `[a, b]` in source order, the emitted
output interns `b` first (location id 1, function id 1, strings
`"b", "b.js"` before `"a", "a.js"`) and `b`'s sample precedes `a`'s in the
sample array — the sample of the *later* child appears first, refuting the
claim that siblings are visited and allocated in source order. -/
theorem c5_source_order_counterexample :
    (serializeTimeProfile c5Prof 7).sample
        = [⟨[1], [1, 7]⟩, ⟨[2], [1, 7]⟩]
    ∧ (serializeTimeProfile c5Prof 7).location
        = [⟨1, [⟨1, 2⟩]⟩, ⟨2, [⟨2, 1⟩]⟩]
    ∧ (serializeTimeProfile c5Prof 7).stringTable
        = ["", "samples", "count", "time", "microseconds", "b", "b.js",
           "a", "a.js"] := by
  refine ⟨?_, ?_, ?_⟩ <;>
    simp [serializeTimeProfile, serialize, serializeLoop, initEntries,
      initState, getLocation, getFunction, getLine, alookup,
      StringTable.getIndexOrAdd, StringTable.new, createSampleValueType,
      createTimeValueType, appendTimeEntryToSamples, locKey, funKey, c5Prof,
      PNode.children, PNode.name, PNode.scriptName, PNode.scriptId,
      PNode.lineNumber, PNode.columnNumber, PNode.payload]

/-- C5 as amended: the LIFO worklist visits siblings in *reverse* source
order: for a root with children `[a, b]` (two leaves with distinct location
keys and positive hit counts), `b` is visited first — `b`'s location gets
id 1 and `a`'s id 2, and `b`'s sample precedes `a`'s in the output. -/
theorem c5_siblings_visited_in_reverse_source_order
    (a b : PNode Nat) (root : PNode Nat) (startTime endTime : Int)
    (intervalMicros : Nat) (ha : a.children = []) (hb : b.children = [])
    (hkey : locKey a ≠ locKey b) (hpa : 0 < a.payload)
    (hpb : 0 < b.payload) (hroot : root.children = [a, b]) :
    (serializeTimeProfile ⟨startTime, endTime, root⟩ intervalMicros).sample
      = [⟨[1], [b.payload, b.payload * intervalMicros]⟩,
         ⟨[2], [a.payload, a.payload * intervalMicros]⟩] := by
  rw [serializeTimeProfile_eq]
  show (timeSerState ⟨startTime, endTime, root⟩ intervalMicros).samples = _
  rw [timeSerState, serializeLoop_initEntries]
  show (dfsList _ root.children [] (initState timeInitTable)).samples = _
  rw [hroot, dfsList, dfsList, dfsList]
  have h0 : alookup (initState timeInitTable).locationIdMap (locKey b)
      = none := rfl
  obtain ⟨hid1, hsmp1, hlen1, hmap1⟩ :=
    getLocation_miss (initState timeInitTable) b h0
  rw [dfsNode_leaf _ b [] _ hb]
  set stB := (getLocation (initState timeInitTable) b).2 with hstB
  have hBsamples : (appendTimeEntryToSamples intervalMicros b
      [(getLocation (initState timeInitTable) b).1.id] stB.samples)
        = [⟨[1], [b.payload, b.payload * intervalMicros]⟩] := by
    rw [appendTimeEntryToSamples, if_pos hpb, hid1]
    rw [hsmp1]
    rfl
  set stB2 : SerState :=
    { stB with samples := (appendTimeEntryToSamples intervalMicros b
        [(getLocation (initState timeInitTable) b).1.id] stB.samples) }
    with hstB2
  have h1 : alookup stB2.locationIdMap (locKey a) = none := by
    have hmapc : stB2.locationIdMap = [(locKey b, 1)] := by
      show stB.locationIdMap = _
      rw [hmap1]
      rfl
    rw [hmapc]
    show (if locKey b = locKey a then some 1 else alookup [] (locKey a))
        = none
    rw [if_neg fun hcontra => hkey hcontra.symm]
    rfl
  obtain ⟨hid2, hsmp2, hlen2, hmap2⟩ := getLocation_miss stB2 a h1
  rw [dfsNode_leaf _ a [] _ ha]
  show appendTimeEntryToSamples intervalMicros a
      [(getLocation stB2 a).1.id] (getLocation stB2 a).2.samples = _
  rw [appendTimeEntryToSamples, if_pos hpa, hid2, hsmp2, hstB2, hBsamples]
  have hlenB : stB.locations.length = 1 := hlen1
  show [Sample.mk [1] [b.payload, b.payload * intervalMicros]]
      ++ [⟨[stB.locations.length + 1], [a.payload,
            a.payload * intervalMicros]⟩] = _
  rw [hlenB]
  norm_num

/-! ## Concrete witnesses -/

/-- A one-node heap profile used in witnesses. -/
def heapEx : PNode (List Allocation) :=
  .mk "(root)" "" 0 0 0 [] [.mk "h" "h.js" 1 4 2 [⟨8, 2⟩] []]

/-- Concrete evaluation: `c6Prof` at interval 5 yields one sample with
stack `[1]` and value `[1, 5]`. -/
theorem c6Prof_sample_eval :
    (serializeTimeProfile c6Prof 5).sample = [⟨[1], [1, 5]⟩] := by
  simp [serializeTimeProfile, serialize, serializeLoop, initEntries,
    initState, getLocation, getFunction, getLine, alookup,
    StringTable.getIndexOrAdd, StringTable.new, createSampleValueType,
    createTimeValueType, appendTimeEntryToSamples, locKey, funKey, c6Prof,
    PNode.children, PNode.name, PNode.scriptName, PNode.scriptId,
    PNode.lineNumber, PNode.columnNumber, PNode.payload]

/-- Closed instance of C1: in the profile of `c6Prof`, the (only) sample's
location id 1 is within the location table. -/
theorem c1_serializer_id_and_index_invariants_witness :
    1 ≤ 1 ∧ 1 ≤ (serializeTimeProfile c6Prof 5).location.length :=
  ((c1_serializer_id_and_index_invariants c6Prof 5 heapEx 0 0 512).1).2.2.1
    ⟨[1], [1, 5]⟩ (by rw [c6Prof_sample_eval]; simp) 1 (by simp)

/-- Closed instance of C3: the sample emitted for the single hit node of
`c6Prof` has `value = [h, h * 5]` for some positive `h`. -/
theorem c3_wall_one_sample_per_hit_node_and_sum_law_witness :
    ∃ h, 0 < h ∧ (Sample.mk [1] [1, 5]).value = [h, h * 5] :=
  (c3_wall_one_sample_per_hit_node_and_sum_law c6Prof 5).2.2
    ⟨[1], [1, 5]⟩ (by rw [c6Prof_sample_eval]; simp)

/-- Closed instance of the amended C5 at the counterexample profile. -/
theorem c5_siblings_visited_in_reverse_source_order_witness :
    (serializeTimeProfile
        ⟨0, 10, .mk "(root)" "" 0 0 0 0
          [.mk "a" "a.js" 1 1 1 1 [], .mk "b" "b.js" 2 2 2 1 []]⟩ 7).sample
      = [⟨[1], [1, 7]⟩, ⟨[2], [1, 7]⟩] := by
  have h := c5_siblings_visited_in_reverse_source_order
    (.mk "a" "a.js" 1 1 1 1 []) (.mk "b" "b.js" 2 2 2 1 [])
    (.mk "(root)" "" 0 0 0 0
      [.mk "a" "a.js" 1 1 1 1 [], .mk "b" "b.js" 2 2 2 1 []])
    0 10 7 rfl rfl (by decide) (by decide) (by decide) rfl
  simpa [PNode.payload] using h

/-! ## C10: every non-root node is interned, independently of samples -/

theorem alookup_isSome_iff {κ ν : Type} [DecidableEq κ]
    (m : List (κ × ν)) (k : κ) :
    (alookup m k).isSome = true ↔ k ∈ m.map Prod.fst := by
  induction m with
  | nil => simp [alookup]
  | cons kv m ih =>
      obtain ⟨k', v'⟩ := kv
      by_cases h : k' = k
      · subst h
        simp [alookup]
      · simp only [alookup, if_neg h, List.map_cons, List.mem_cons, ih]
        constructor
        · intro hmem
          exact Or.inr hmem
        · rintro (rfl | hmem)
          · exact absurd rfl h
          · exact hmem

theorem alookup_isSome_append {κ ν : Type} [DecidableEq κ]
    {m : List (κ × ν)} {k : κ} (b : List (κ × ν))
    (h : (alookup m k).isSome = true) :
    (alookup (m ++ b) k).isSome = true := by
  rw [alookup_append]
  cases hm : alookup m k with
  | none => rw [hm] at h; simp at h
  | some v => simp

/-- The function key determined by a location key. -/
def funOfLocKey (k : LocKey) : FunKey := (k.1, k.2.2.2)

theorem funOfLocKey_locKey {α : Type} (n : PNode α) :
    funOfLocKey (locKey n) = funKey n := rfl

/-- The bookkeeping invariant for C10: every interned location key has its
function key interned, and the location intern map matches the location
array one-to-one with no duplicate keys. -/
structure C10Inv (st : SerState) : Prop where
  linked : ∀ kv ∈ st.locationIdMap,
      (alookup st.functionIdMap (funOfLocKey kv.1)).isSome = true
  len : st.locationIdMap.length = st.locations.length
  nodup : (st.locationIdMap.map Prod.fst).Nodup

/-- After `getFunction`, the node's function key is interned. -/
theorem getFunction_look_isSome {α : Type} (st : SerState) (n : PNode α) :
    (alookup (getFunction st n).2.functionIdMap (funKey n)).isSome
      = true := by
  unfold getFunction
  cases h : alookup st.functionIdMap (funKey n) with
  | some id => simp [h]
  | none =>
      simp only
      rw [alookup_append_of_none _ h]
      simp [alookup]

/-- `getFunction` preserves the C10 invariant. -/
theorem getFunction_c10 {α : Type} (st : SerState) (n : PNode α)
    (h : C10Inv st) : C10Inv (getFunction st n).2 := by
  obtain ⟨hfm, hfl⟩ : (∃ a, (getFunction st n).2.functionIdMap
      = st.functionIdMap ++ a) ∧ (getFunction st n).2.locationIdMap
      = st.locationIdMap ∧ (getFunction st n).2.locations = st.locations :=
    ⟨(getFunction_ext st n).fmap, getFunction_lmap st n,
      getFunction_locations st n⟩
  obtain ⟨a, ha⟩ := hfm
  refine ⟨?_, ?_, ?_⟩
  · intro kv hkv
    rw [hfl.1] at hkv
    rw [ha]
    exact alookup_isSome_append a (h.linked kv hkv)
  · rw [hfl.1, hfl.2]
    exact h.len
  · rw [hfl.1]
    exact h.nodup

/-- `getLocation` preserves the C10 invariant, interns the node's location
and function keys, and extends the key list by at most `[locKey n]`. -/
theorem getLocation_c10 {α : Type} (st : SerState) (n : PNode α)
    (h : C10Inv st) :
    C10Inv (getLocation st n).2
    ∧ (alookup (getLocation st n).2.locationIdMap (locKey n)).isSome = true
    ∧ (alookup (getLocation st n).2.functionIdMap (funKey n)).isSome = true
    ∧ ((getLocation st n).2.locationIdMap.map Prod.fst
        = st.locationIdMap.map Prod.fst
      ∨ (getLocation st n).2.locationIdMap.map Prod.fst
        = st.locationIdMap.map Prod.fst ++ [locKey n]) := by
  unfold getLocation getLine
  cases hl : alookup st.locationIdMap (locKey n) with
  | some id =>
      refine ⟨h, by simp [hl], ?_, Or.inl rfl⟩
      have hmem := alookup_mem hl
      have := h.linked _ hmem
      simpa [funOfLocKey_locKey] using this
  | none =>
      simp only [getFunction_lmap_comm]
      have hlook := getFunction_look_isSome st n
      have hgl := getFunction_locations st n
      obtain ⟨a, ha⟩ := (getFunction_ext st n).fmap
      have hnotmem : locKey n ∉ st.locationIdMap.map Prod.fst := by
        intro hmem
        have := (alookup_isSome_iff st.locationIdMap (locKey n)).2 hmem
        rw [hl] at this
        simp at this
      refine ⟨⟨?_, ?_, ?_⟩, ?_, ?_, Or.inr (by simp)⟩
      · intro kv hkv
        simp only [List.mem_append, List.mem_singleton] at hkv
        rcases hkv with hkv | hkv
        · show (alookup (getFunction st n).2.functionIdMap
            (funOfLocKey kv.1)).isSome = true
          rw [ha]
          exact alookup_isSome_append a (h.linked kv hkv)
        · subst hkv
          simpa [funOfLocKey_locKey] using hlook
      · have hlen := h.len
        simp [hgl]
        omega
      · simp only [List.map_append, List.map_cons, List.map_nil]
        rw [List.nodup_append]
        refine ⟨h.nodup, List.nodup_singleton _, ?_⟩
        intro x hx hy
        simp only [List.mem_singleton] at hy
        subst hy
        exact hnotmem hx
      · rw [alookup_append_of_none _ hl]
        simp [alookup]
      · simpa using hlook

mutual

/-- The function intern map only grows during `dfsNode`. -/
theorem dfsNode_fmap_ext {α : Type} (append : AppendEntryToSamples α)
    (n : PNode α) (stack : List Nat) (st : SerState) :
    ∃ a, (dfsNode append n stack st).functionIdMap
      = st.functionIdMap ++ a := by
  rw [dfsNode]
  obtain ⟨a, ha⟩ := (getLocation_ext st n).fmap
  obtain ⟨b, hb⟩ := dfsList_fmap_ext append n.children
    ((getLocation st n).1.id :: stack)
    { (getLocation st n).2 with
      samples := append n ((getLocation st n).1.id :: stack)
        (getLocation st n).2.samples }
  exact ⟨a ++ b, by rw [hb]; simp [ha]⟩
  termination_by sizeOf n
  decreasing_by
    exact sizeOf_children_lt n

/-- The function intern map only grows during `dfsList`. -/
theorem dfsList_fmap_ext {α : Type} (append : AppendEntryToSamples α)
    (cs : List (PNode α)) (stack : List Nat) (st : SerState) :
    ∃ a, (dfsList append cs stack st).functionIdMap
      = st.functionIdMap ++ a := by
  match cs with
  | [] => rw [dfsList]; exact ⟨[], by simp⟩
  | c :: cs =>
      rw [dfsList]
      obtain ⟨a, ha⟩ := dfsList_fmap_ext append cs stack st
      obtain ⟨b, hb⟩ := dfsNode_fmap_ext append c stack
        (dfsList append cs stack st)
      exact ⟨a ++ b, by rw [hb, ha]; simp⟩
  termination_by sizeOf cs
  decreasing_by
    · simp only [List.cons.sizeOf_spec]; omega
    · simp only [List.cons.sizeOf_spec]; omega

end

mutual

/-- C10, dfs level: the invariant is preserved, every node of the subtree
has its location and function keys interned, and the interned location keys
grow exactly by the subtree's keys. -/
theorem dfsNode_c10 {α : Type} (append : AppendEntryToSamples α)
    (n : PNode α) (stack : List Nat) (st : SerState) (h : C10Inv st) :
    C10Inv (dfsNode append n stack st)
    ∧ (∀ m ∈ allNodes n,
        (alookup (dfsNode append n stack st).locationIdMap
          (locKey m)).isSome = true
        ∧ (alookup (dfsNode append n stack st).functionIdMap
          (funKey m)).isSome = true)
    ∧ ∀ k, k ∈ (dfsNode append n stack st).locationIdMap.map Prod.fst
        ↔ k ∈ st.locationIdMap.map Prod.fst
          ∨ k ∈ (allNodes n).map locKey := by
  rw [dfsNode]
  obtain ⟨h10, hlocS, hfunS, hkeys⟩ := getLocation_c10 st n h
  set p := getLocation st n with hp
  set st2 : SerState :=
    { p.2 with samples := append n (p.1.id :: stack) p.2.samples }
    with hst2
  have h10' : C10Inv st2 := ⟨h10.linked, h10.len, h10.nodup⟩
  obtain ⟨hrec10, hrecAll, hrecKeys⟩ :=
    dfsList_c10 append n.children (p.1.id :: stack) st2 h10'
  have hmemn : locKey n ∈ st2.locationIdMap.map Prod.fst :=
    (alookup_isSome_iff _ _).1 hlocS
  refine ⟨hrec10, ?_, ?_⟩
  · intro m hm
    rw [allNodes] at hm
    rcases List.mem_cons.1 hm with rfl | hm
    · constructor
      · rw [alookup_isSome_iff]
        exact (hrecKeys (locKey m)).2 (Or.inl hmemn)
      · obtain ⟨a, ha⟩ := dfsList_fmap_ext append m.children
          (p.1.id :: stack) st2
        rw [ha]
        exact alookup_isSome_append a hfunS
    · exact hrecAll m hm
  · intro k
    rw [hrecKeys k, allNodes, List.map_cons, List.mem_cons]
    have hkeys2 : st2.locationIdMap.map Prod.fst
        = p.2.locationIdMap.map Prod.fst := rfl
    rcases hkeys with hk | hk
    · rw [hkeys2, hk]
      have hmemn' : locKey n ∈ st.locationIdMap.map Prod.fst := by
        rw [hkeys2, hk] at hmemn
        exact hmemn
      constructor
      · rintro (hmem | hmem)
        · exact Or.inl hmem
        · exact Or.inr (Or.inr hmem)
      · rintro (hmem | rfl | hmem)
        · exact Or.inl hmem
        · exact Or.inl hmemn'
        · exact Or.inr hmem
    · rw [hkeys2, hk]
      simp only [List.mem_append, List.mem_singleton]
      tauto
  termination_by sizeOf n
  decreasing_by
    exact sizeOf_children_lt n

/-- C10, forest level. -/
theorem dfsList_c10 {α : Type} (append : AppendEntryToSamples α)
    (cs : List (PNode α)) (stack : List Nat) (st : SerState)
    (h : C10Inv st) :
    C10Inv (dfsList append cs stack st)
    ∧ (∀ m ∈ allNodesList cs,
        (alookup (dfsList append cs stack st).locationIdMap
          (locKey m)).isSome = true
        ∧ (alookup (dfsList append cs stack st).functionIdMap
          (funKey m)).isSome = true)
    ∧ ∀ k, k ∈ (dfsList append cs stack st).locationIdMap.map Prod.fst
        ↔ k ∈ st.locationIdMap.map Prod.fst
          ∨ k ∈ (allNodesList cs).map locKey := by
  match cs with
  | [] =>
      rw [dfsList, allNodesList]
      exact ⟨h, by simp, by simp⟩
  | c :: cs =>
      rw [dfsList, allNodesList_cons]
      obtain ⟨h1, hall1, hkeys1⟩ := dfsList_c10 append cs stack st h
      obtain ⟨h2, hall2, hkeys2⟩ := dfsNode_c10 append c stack
        (dfsList append cs stack st) h1
      obtain ⟨afm, hafm⟩ := dfsNode_fmap_ext append c stack
        (dfsList append cs stack st)
      refine ⟨h2, ?_, ?_⟩
      · intro m hm
        rw [List.mem_append] at hm
        rcases hm with hm | hm
        · exact hall2 m hm
        · obtain ⟨hl1, hf1⟩ := hall1 m hm
          constructor
          · rw [alookup_isSome_iff]
            exact (hkeys2 (locKey m)).2
              (Or.inl ((alookup_isSome_iff _ _).1 hl1))
          · rw [hafm]
            exact alookup_isSome_append afm hf1
      · intro k
        rw [hkeys2 k, hkeys1 k]
        simp only [List.map_append, List.mem_append]
        tauto
  termination_by sizeOf cs
  decreasing_by
    · simp only [List.cons.sizeOf_spec]; omega
    · simp only [List.cons.sizeOf_spec]; omega

end

/-- The sample-independent part of the serializer state: everything except
the sample array. -/
def skel (st : SerState) :
    List Location × List ProfileFunction × List (LocKey × Nat)
      × List (FunKey × Nat) × StringTable :=
  (st.locations, st.functions, st.locationIdMap, st.functionIdMap,
   st.stringTable)

theorem strip_fields {α β : Type} {n : PNode α} {n' : PNode β}
    (h : strip n = strip n') :
    n.name = n'.name ∧ n.scriptName = n'.scriptName
    ∧ n.scriptId = n'.scriptId ∧ n.lineNumber = n'.lineNumber
    ∧ n.columnNumber = n'.columnNumber
    ∧ stripList n.children = stripList n'.children := by
  cases n with
  | mk a1 a2 a3 a4 a5 a6 a7 =>
      cases n' with
      | mk b1 b2 b3 b4 b5 b6 b7 =>
          rw [strip, strip] at h
          simp only [PNode.mk.injEq] at h
          obtain ⟨h1, h2, h3, h4, h5, -, h6⟩ := h
          exact ⟨h1, h2, h3, h4, h5, h6⟩

/-- `getFunction` returns the same entry and the same sample-independent
state on skeleton-equal inputs. -/
theorem getFunction_skel {α β : Type} (st st' : SerState) (n : PNode α)
    (n' : PNode β) (hsk : skel st = skel st') (h : strip n = strip n') :
    (getFunction st n).1 = (getFunction st' n').1
    ∧ skel (getFunction st n).2 = skel (getFunction st' n').2 := by
  obtain ⟨hn, hsn, hsi, hln, hcn, hch⟩ := strip_fields h
  have hl : st.locations = st'.locations := congrArg Prod.fst hsk
  have hf : st.functions = st'.functions :=
    congrArg (fun x => x.2.1) hsk
  have hlm : st.locationIdMap = st'.locationIdMap :=
    congrArg (fun x => x.2.2.1) hsk
  have hfm : st.functionIdMap = st'.functionIdMap :=
    congrArg (fun x => x.2.2.2.1) hsk
  have hst : st.stringTable = st'.stringTable :=
    congrArg (fun x => x.2.2.2.2) hsk
  have hkey : funKey n' = funKey n := by simp [funKey, hsi, hn]
  cases hc : alookup st.functionIdMap (funKey n) with
  | some id =>
      have hc' : alookup st'.functionIdMap (funKey n') = some id := by
        rw [hkey, ← hfm, hc]
      simp only [getFunction, hc, hc']
      exact ⟨by rw [hf], hsk⟩
  | none =>
      have hc' : alookup st'.functionIdMap (funKey n') = none := by
        rw [hkey, ← hfm, hc]
      simp only [getFunction, hc, hc']
      constructor
      · rw [hf, hst, hn, hsn]
      · simp only [skel]
        rw [hf, hst, hn, hsn, hlm, hfm, hkey]
        rw [hl]

/-- `getLocation` returns the same location and the same sample-independent
state on skeleton-equal inputs. -/
theorem getLocation_skel {α β : Type} (st st' : SerState) (n : PNode α)
    (n' : PNode β) (hsk : skel st = skel st') (h : strip n = strip n') :
    (getLocation st n).1 = (getLocation st' n').1
    ∧ skel (getLocation st n).2 = skel (getLocation st' n').2 := by
  obtain ⟨hn, hsn, hsi, hln, hcn, hch⟩ := strip_fields h
  have hl : st.locations = st'.locations := congrArg Prod.fst hsk
  have hlm : st.locationIdMap = st'.locationIdMap :=
    congrArg (fun x => x.2.2.1) hsk
  have hkey : locKey n' = locKey n := by simp [locKey, hsi, hn, hln, hcn]
  cases hc : alookup st.locationIdMap (locKey n) with
  | some id =>
      have hc' : alookup st'.locationIdMap (locKey n') = some id := by
        rw [hkey, ← hlm, hc]
      simp only [getLocation, hc, hc']
      exact ⟨by rw [hl], hsk⟩
  | none =>
      have hc' : alookup st'.locationIdMap (locKey n') = none := by
        rw [hkey, ← hlm, hc]
      simp only [getLocation, getLine, hc, hc', getFunction_lmap_comm]
      have hsk2 := hsk
      obtain ⟨hgf1, hgf2⟩ := getFunction_skel st st' n n' hsk h
      have hgl : (getFunction st n).2.locations
          = (getFunction st' n').2.locations :=
        congrArg Prod.fst hgf2
      constructor
      · rw [hl, hln, hgf1]
      · simp only [skel]
        rw [hgl, hl, hln, hgf1, hkey, hlm]
        have hgfn : (getFunction st n).2.functions
            = (getFunction st' n').2.functions :=
          congrArg (fun x => x.2.1) hgf2
        have hgffm : (getFunction st n).2.functionIdMap
            = (getFunction st' n').2.functionIdMap :=
          congrArg (fun x => x.2.2.2.1) hgf2
        have hgfst : (getFunction st n).2.stringTable
            = (getFunction st' n').2.stringTable :=
          congrArg (fun x => x.2.2.2.2) hgf2
        rw [hgfn, hgffm, hgfst]

mutual

/-- The sample-independent state after `dfsNode` depends only on the
stripped tree, not on the payloads, the callback or the stacks. -/
theorem dfsNode_skel {α β : Type} (ap : AppendEntryToSamples α)
    (ap' : AppendEntryToSamples β) (n : PNode α) (n' : PNode β)
    (stack stack' : List Nat) (st st' : SerState)
    (hsk : skel st = skel st') (h : strip n = strip n') :
    skel (dfsNode ap n stack st) = skel (dfsNode ap' n' stack' st') := by
  rw [dfsNode, dfsNode]
  obtain ⟨-, -, -, -, -, hch⟩ := strip_fields h
  obtain ⟨hloc, hsk2⟩ := getLocation_skel st st' n n' hsk h
  exact dfsList_skel ap ap' n.children n'.children _ _ _ _ hsk2 hch
  termination_by sizeOf n
  decreasing_by
    exact sizeOf_children_lt n

/-- The sample-independent state after `dfsList` depends only on the
stripped forest. -/
theorem dfsList_skel {α β : Type} (ap : AppendEntryToSamples α)
    (ap' : AppendEntryToSamples β) (cs : List (PNode α))
    (cs' : List (PNode β)) (stack stack' : List Nat) (st st' : SerState)
    (hsk : skel st = skel st') (h : stripList cs = stripList cs') :
    skel (dfsList ap cs stack st) = skel (dfsList ap' cs' stack' st') := by
  match cs, cs' with
  | [], [] =>
      rw [dfsList, dfsList]
      exact hsk
  | [], c' :: cs' =>
      rw [stripList, stripList] at h
      exact absurd h (by simp)
  | c :: cs, [] =>
      rw [stripList, stripList] at h
      exact absurd h (by simp)
  | c :: cs, c' :: cs' =>
      rw [stripList, stripList] at h
      simp only [List.cons.injEq] at h
      obtain ⟨hc, hcs⟩ := h
      rw [dfsList, dfsList]
      exact dfsNode_skel ap ap' c c' stack stack' _ _
        (dfsList_skel ap ap' cs cs' stack stack' st st' hsk hcs) hc
  termination_by sizeOf cs
  decreasing_by
    · simp only [List.cons.sizeOf_spec]; omega
    · simp only [List.cons.sizeOf_spec]; omega

end

theorem c10Inv_init (t : StringTable) : C10Inv (initState t) := by
  refine ⟨?_, rfl, ?_⟩ <;> simp [initState]

/-- C10: every node of the input tree except the root is interned into the
location table, and its function into the function table, during
serialization — regardless of whether the node carries samples; the
location, function and string tables depend only on the stripped tree
(payloads, sampling interval and emitted samples do not matter); and the
location count equals the number of distinct location keys among the
non-root nodes. -/
theorem c10_interning_independent_of_samples
    (prof prof' : TimeProfile) (intervalMicros intervalMicros' : Nat)
    (hp hp' : PNode (List Allocation)) (t d t' d' : Int) (ib ib' : Nat)
    (hT : stripList prof.topDownRoot.children
      = stripList prof'.topDownRoot.children)
    (hH : stripList hp.children = stripList hp'.children) :
    (∀ m ∈ allNodesList prof.topDownRoot.children,
        (alookup (timeSerState prof intervalMicros).locationIdMap
          (locKey m)).isSome = true
        ∧ (alookup (timeSerState prof intervalMicros).functionIdMap
          (funKey m)).isSome = true)
    ∧ (∀ m ∈ allNodesList hp.children,
        (alookup (heapSerState hp).locationIdMap (locKey m)).isSome = true
        ∧ (alookup (heapSerState hp).functionIdMap (funKey m)).isSome
            = true)
    ∧ (serializeTimeProfile prof intervalMicros).location
        = (serializeTimeProfile prof' intervalMicros').location
    ∧ (serializeTimeProfile prof intervalMicros).functions
        = (serializeTimeProfile prof' intervalMicros').functions
    ∧ (serializeTimeProfile prof intervalMicros).stringTable
        = (serializeTimeProfile prof' intervalMicros').stringTable
    ∧ (serializeHeapProfile hp t d ib).location
        = (serializeHeapProfile hp' t' d' ib').location
    ∧ (serializeTimeProfile prof intervalMicros).location.length
        = ((allNodesList prof.topDownRoot.children).map
            locKey).toFinset.card := by
  have hTrw : timeSerState prof intervalMicros
      = dfsList (appendTimeEntryToSamples intervalMicros)
          prof.topDownRoot.children [] (initState timeInitTable) := by
    rw [timeSerState, serializeLoop_initEntries]
  have hTrw' : timeSerState prof' intervalMicros'
      = dfsList (appendTimeEntryToSamples intervalMicros')
          prof'.topDownRoot.children [] (initState timeInitTable) := by
    rw [timeSerState, serializeLoop_initEntries]
  have hHrw : heapSerState hp
      = dfsList appendHeapEntryToSamples hp.children []
          (initState heapInitTable) := by
    rw [heapSerState, serializeLoop_initEntries]
  have hHrw' : heapSerState hp'
      = dfsList appendHeapEntryToSamples hp'.children []
          (initState heapInitTable) := by
    rw [heapSerState, serializeLoop_initEntries]
  obtain ⟨hfinal10, hallT, hkeysT⟩ :=
    dfsList_c10 (appendTimeEntryToSamples intervalMicros)
      prof.topDownRoot.children [] (initState timeInitTable)
      (c10Inv_init timeInitTable)
  obtain ⟨-, hallH, -⟩ :=
    dfsList_c10 appendHeapEntryToSamples hp.children []
      (initState heapInitTable) (c10Inv_init heapInitTable)
  have hskelT := dfsList_skel (appendTimeEntryToSamples intervalMicros)
    (appendTimeEntryToSamples intervalMicros')
    prof.topDownRoot.children prof'.topDownRoot.children [] []
    (initState timeInitTable) (initState timeInitTable) rfl hT
  have hskelH := dfsList_skel appendHeapEntryToSamples
    appendHeapEntryToSamples hp.children hp'.children [] []
    (initState heapInitTable) (initState heapInitTable) rfl hH
  refine ⟨by rw [hTrw]; exact hallT, by rw [hHrw]; exact hallH, ?_, ?_, ?_,
    ?_, ?_⟩
  · rw [serializeTimeProfile_eq, serializeTimeProfile_eq]
    show (timeSerState prof intervalMicros).locations = _
    rw [hTrw, hTrw']
    exact congrArg Prod.fst hskelT
  · rw [serializeTimeProfile_eq, serializeTimeProfile_eq]
    show (timeSerState prof intervalMicros).functions = _
    rw [hTrw, hTrw']
    exact congrArg (fun x => x.2.1) hskelT
  · rw [serializeTimeProfile_eq, serializeTimeProfile_eq]
    show (timeSerState prof intervalMicros).stringTable.strings = _
    rw [hTrw, hTrw']
    exact congrArg (fun x => x.2.2.2.2.strings) hskelT
  · rw [serializeHeapProfile_eq, serializeHeapProfile_eq]
    show (heapSerState hp).locations = _
    rw [hHrw, hHrw']
    exact congrArg Prod.fst hskelH
  · rw [serializeTimeProfile_eq]
    show (timeSerState prof intervalMicros).locations.length = _
    rw [hTrw]
    set stF := dfsList (appendTimeEntryToSamples intervalMicros)
      prof.topDownRoot.children [] (initState timeInitTable) with hstF
    have hlen : stF.locationIdMap.length = stF.locations.length :=
      hfinal10.len
    have hnodup : (stF.locationIdMap.map Prod.fst).Nodup := hfinal10.nodup
    have hiff : ∀ k, k ∈ stF.locationIdMap.map Prod.fst
        ↔ k ∈ (allNodesList prof.topDownRoot.children).map locKey := by
      intro k
      rw [hkeysT k]
      simp [initState]
    have hfin : (stF.locationIdMap.map Prod.fst).toFinset
        = ((allNodesList prof.topDownRoot.children).map locKey).toFinset := by
      ext k
      simp only [List.mem_toFinset]
      exact hiff k
    have hcard := List.toFinset_card_of_nodup hnodup
    rw [← hlen, ← List.length_map stF.locationIdMap Prod.fst, ← hcard, hfin]

/-- Closed instance of C10: changing only the hit counts (1,1) → (0,5) and
the sampling interval leaves the location table unchanged. -/
theorem c10_interning_independent_of_samples_witness :
    (serializeTimeProfile c5Prof 7).location
      = (serializeTimeProfile
          ⟨3, 4, .mk "(root)" "" 0 0 0 0
            [.mk "a" "a.js" 1 1 1 0 [], .mk "b" "b.js" 2 2 2 5 []]⟩
          9).location :=
  (c10_interning_independent_of_samples c5Prof
    ⟨3, 4, .mk "(root)" "" 0 0 0 0
      [.mk "a" "a.js" 1 1 1 0 [], .mk "b" "b.js" 2 2 2 5 []]⟩
    7 9 heapEx heapEx 0 0 0 0 512 512
    (by simp [c5Prof, strip, stripList, PNode.children]) rfl).2.2.1

/-! ## C2: sample stacks are leaf-first ancestor chains

The location id the serializer assigned to a node is read off the final
location intern map; `locIdIn st n` is that id.  Every emitted sample's
`locationId` is the chain `node :: ancestors` (excluding the root) mapped
through `locIdIn`. -/

/-- The location id interned for (the key of) a node in a state. -/
def locIdIn (st : SerState) {α : Type} (n : PNode α) : Nat :=
  (alookup st.locationIdMap (locKey n)).getD 0

/-- Assigned ids persist under state extension. -/
theorem locIdIn_stable {st st' : SerState}
    (hext : ∃ a, st'.locationIdMap = st.locationIdMap ++ a) {α : Type}
    (m : PNode α)
    (hm : (alookup st.locationIdMap (locKey m)).isSome = true) :
    locIdIn st' m = locIdIn st m := by
  obtain ⟨a, ha⟩ := hext
  cases hc : alookup st.locationIdMap (locKey m) with
  | none => rw [hc] at hm; simp at hm
  | some v =>
      unfold locIdIn
      rw [ha, alookup_append_of_some a hc, hc]

theorem map_locIdIn_stable {st st' : SerState}
    (hext : ∃ a, st'.locationIdMap = st.locationIdMap ++ a) {α : Type}
    (l : List (PNode α))
    (hl : ∀ m ∈ l, (alookup st.locationIdMap (locKey m)).isSome = true) :
    l.map (locIdIn st') = l.map (locIdIn st) := by
  apply List.map_congr_left
  intro m hm
  exact locIdIn_stable hext m (hl m hm)

theorem alookup_isSome_append' {κ ν : Type} [DecidableEq κ]
    {m m' : List (κ × ν)} {k : κ}
    (hext : ∃ a, m' = m ++ a) (h : (alookup m k).isSome = true) :
    (alookup m' k).isSome = true := by
  obtain ⟨a, ha⟩ := hext
  rw [ha]
  exact alookup_isSome_append a h

/-- One serializer step (intern the location, push the samples) preserves
the invariant and the stack bound. -/
theorem dfs_step_inv {α : Type} (append : AppendEntryToSamples α)
    (hgood : CallbackGood append) (n : PNode α) (stack : List Nat)
    (st : SerState) (hinv : Inv st)
    (hstack : ∀ l ∈ stack, 1 ≤ l ∧ l ≤ st.locations.length) :
    Inv { (getLocation st n).2 with
      samples := append n ((getLocation st n).1.id :: stack)
        (getLocation st n).2.samples }
    ∧ ∀ l ∈ (getLocation st n).1.id :: stack,
        1 ≤ l ∧ l ≤ (getLocation st n).2.locations.length := by
  obtain ⟨hinv1, hid1, hid2, -⟩ := getLocation_spec st n hinv
  have hext1 := getLocation_ext st n
  obtain ⟨ext, he, hext⟩ := hgood n ((getLocation st n).1.id :: stack)
    (getLocation st n).2.samples
  have hbound : ∀ l ∈ (getLocation st n).1.id :: stack,
      1 ≤ l ∧ l ≤ (getLocation st n).2.locations.length := by
    intro l hlmem
    rcases List.mem_cons.1 hlmem with rfl | hlmem
    · exact ⟨hid1, hid2⟩
    · exact stackBound_mono hext1 hstack l hlmem
  refine ⟨⟨hinv1.fid, hinv1.lid, hinv1.fmap, hinv1.lmap, hinv1.smap, ?_,
    hinv1.locB, hinv1.funB⟩, hbound⟩
  intro s hs
  simp only [he, List.mem_append] at hs
  rcases hs with hs | hs
  · exact hinv1.sampB _ hs
  · intro l hlmem
    rw [hext s hs] at hlmem
    exact hbound l hlmem

mutual

/-- C2, dfs level: assuming the incoming stack is the ancestor chain's ids
and all ancestor keys are interned, every sample in the result is either an
old sample or carries the ids of a chain of `nodeChains n anc`; and every
node of every such chain is interned in the result. -/
theorem dfsNode_chains {α : Type} (append : AppendEntryToSamples α)
    (hgood : CallbackGood append) (n : PNode α) (anc : List (PNode α))
    (stack : List Nat) (st : SerState) (hinv : Inv st)
    (hstackB : ∀ l ∈ stack, 1 ≤ l ∧ l ≤ st.locations.length)
    (hstack : stack = anc.map (locIdIn st))
    (hanc : ∀ m ∈ anc,
      (alookup st.locationIdMap (locKey m)).isSome = true) :
    (∀ s ∈ (dfsNode append n stack st).samples,
        s ∈ st.samples
        ∨ ∃ ch ∈ nodeChains n anc,
            s.locationId = ch.map (locIdIn (dfsNode append n stack st)))
    ∧ ∀ ch ∈ nodeChains n anc, ∀ m ∈ ch,
        (alookup (dfsNode append n stack st).locationIdMap
          (locKey m)).isSome = true := by
  rw [dfsNode]
  obtain ⟨hinv1, hid1, hid2, hlook⟩ := getLocation_spec st n hinv
  have hext1 := getLocation_ext st n
  obtain ⟨hinv2, hbound2⟩ := dfs_step_inv append hgood n stack st hinv
    hstackB
  set p := getLocation st n with hp
  set st2 : SerState :=
    { p.2 with samples := (append n (p.1.id :: stack) p.2.samples) }
    with hst2
  have hlook2 : alookup st2.locationIdMap (locKey n) = some p.1.id := hlook
  have hanc2 : ∀ m ∈ n :: anc,
      (alookup st2.locationIdMap (locKey m)).isSome = true := by
    intro m hm
    rcases List.mem_cons.1 hm with rfl | hm
    · rw [hlook2]; rfl
    · exact alookup_isSome_append' hext1.lmap (hanc m hm)
  have hstack2 : p.1.id :: stack = (n :: anc).map (locIdIn st2) := by
    rw [List.map_cons]
    have hhead : locIdIn st2 n = p.1.id := by
      unfold locIdIn
      rw [hlook2]
      rfl
    have htail : anc.map (locIdIn st2) = anc.map (locIdIn st) := by
      exact map_locIdIn_stable hext1.lmap anc hanc
    rw [hhead, htail, ← hstack]
  obtain ⟨hrecS, hrecK⟩ := dfsList_chains append hgood n.children (n :: anc)
    (p.1.id :: stack) st2 hinv2 hbound2 hstack2 hanc2
  have hrext : SExt st2 (dfsList append n.children (p.1.id :: stack) st2) :=
    dfsList_ext append hgood n.children (p.1.id :: stack) st2
  obtain ⟨ext, he, hext⟩ := hgood n (p.1.id :: stack) p.2.samples
  have hsmp : p.2.samples = st.samples := getLocation_samples st n
  constructor
  · intro s hs
    rcases hrecS s hs with hmem | ⟨ch, hch, hid⟩
    · have : s ∈ st.samples ++ ext := by
        rw [← hsmp]
        simpa [he] using hmem
      rcases List.mem_append.1 this with hmem' | hmem'
      · exact Or.inl hmem'
      · refine Or.inr ⟨n :: anc, ?_, ?_⟩
        · rw [nodeChains]
          simp
        · rw [hext s hmem']
          calc p.1.id :: stack
              = (n :: anc).map (locIdIn st2) := hstack2
            _ = _ := (map_locIdIn_stable hrext.lmap (n :: anc) hanc2).symm
    · refine Or.inr ⟨ch, ?_, hid⟩
      rw [nodeChains]
      simp only [List.mem_cons]
      exact Or.inr hch
  · intro ch hch m hm
    rw [nodeChains] at hch
    rcases List.mem_cons.1 hch with rfl | hch
    · exact alookup_isSome_append' hrext.lmap (hanc2 m hm)
    · exact hrecK ch hch m hm
  termination_by sizeOf n
  decreasing_by
    exact sizeOf_children_lt n

/-- C2, forest level. -/
theorem dfsList_chains {α : Type} (append : AppendEntryToSamples α)
    (hgood : CallbackGood append) (cs : List (PNode α))
    (anc : List (PNode α)) (stack : List Nat) (st : SerState)
    (hinv : Inv st)
    (hstackB : ∀ l ∈ stack, 1 ≤ l ∧ l ≤ st.locations.length)
    (hstack : stack = anc.map (locIdIn st))
    (hanc : ∀ m ∈ anc,
      (alookup st.locationIdMap (locKey m)).isSome = true) :
    (∀ s ∈ (dfsList append cs stack st).samples,
        s ∈ st.samples
        ∨ ∃ ch ∈ listChains cs anc,
            s.locationId = ch.map (locIdIn (dfsList append cs stack st)))
    ∧ ∀ ch ∈ listChains cs anc, ∀ m ∈ ch,
        (alookup (dfsList append cs stack st).locationIdMap
          (locKey m)).isSome = true := by
  match cs with
  | [] =>
      rw [dfsList, listChains]
      exact ⟨fun s hs => Or.inl hs, by simp⟩
  | c :: cs =>
      rw [dfsList, listChains]
      have hB := dfsList_ext append hgood cs stack st
      obtain ⟨hS1, hK1⟩ := dfsList_chains append hgood cs anc stack st hinv
        hstackB hstack hanc
      have hinvB := dfsList_inv append hgood cs stack st hinv hstackB
      have hstackBB := stackBound_mono hB hstackB
      have hstackB2 : stack
          = anc.map (locIdIn (dfsList append cs stack st)) := by
        rw [map_locIdIn_stable hB.lmap anc hanc, ← hstack]
      have hancB : ∀ m ∈ anc,
          (alookup (dfsList append cs stack st).locationIdMap
            (locKey m)).isSome = true := by
        intro m hm
        exact alookup_isSome_append' hB.lmap (hanc m hm)
      obtain ⟨hS2, hK2⟩ := dfsNode_chains append hgood c anc stack
        (dfsList append cs stack st) hinvB hstackBB hstackB2 hancB
      have hA := dfsNode_ext append hgood c stack
        (dfsList append cs stack st)
      constructor
      · intro s hs
        rcases hS2 s hs with hmem | ⟨ch, hch, hid⟩
        · rcases hS1 s hmem with hmem' | ⟨ch, hch, hid⟩
          · exact Or.inl hmem'
          · refine Or.inr ⟨ch, by simp [hch], ?_⟩
            rw [hid]
            exact (map_locIdIn_stable hA.lmap ch (hK1 ch hch)).symm
        · exact Or.inr ⟨ch, by simp [hch], hid⟩
      · intro ch hch m hm
        rcases List.mem_append.1 hch with hch | hch
        · exact hK2 ch hch m hm
        · exact alookup_isSome_append' hA.lmap (hK1 ch hch m hm)
  termination_by sizeOf cs
  decreasing_by
    · simp only [List.cons.sizeOf_spec]; omega
    · simp only [List.cons.sizeOf_spec]; omega

end

/-- C2: every sample emitted by the serializer (WALL or HEAP) carries as its
`locationId` the chain of interned location ids of the emitting node
followed by its ancestors toward the root — `locationId[0]` is the emitting
node's own location, each successive entry the next ancestor — and the root
itself never appears: traversal starts from the root's children with empty
initial stacks, so the chains of `listChains root.children []` end at the
root's children. -/
theorem c2_sample_stacks_are_ancestor_chains
    (prof : TimeProfile) (intervalMicros : Nat)
    (hp : PNode (List Allocation)) (startTimeNanos durationNanos : Int)
    (intervalBytes : Nat) :
    (∀ s ∈ (serializeTimeProfile prof intervalMicros).sample,
        ∃ ch ∈ listChains prof.topDownRoot.children [],
          s.locationId
            = ch.map (locIdIn (timeSerState prof intervalMicros)))
    ∧ ∀ s ∈ (serializeHeapProfile hp startTimeNanos durationNanos
          intervalBytes).sample,
        ∃ ch ∈ listChains hp.children [],
          s.locationId = ch.map (locIdIn (heapSerState hp)) := by
  constructor
  · intro s hs
    rw [serializeTimeProfile_eq] at hs
    have hrw : timeSerState prof intervalMicros
        = dfsList (appendTimeEntryToSamples intervalMicros)
            prof.topDownRoot.children [] (initState timeInitTable) := by
      rw [timeSerState, serializeLoop_initEntries]
    obtain ⟨hS, -⟩ := dfsList_chains (appendTimeEntryToSamples intervalMicros)
      (callbackGood_time intervalMicros) prof.topDownRoot.children [] []
      (initState timeInitTable) (inv_initState _ timeInitTable_smap_wf)
      (by simp) (by simp) (by simp)
    rw [hrw] at hs ⊢
    rcases hS s hs with hmem | hex
    · simp [initState] at hmem
    · exact hex
  · intro s hs
    rw [serializeHeapProfile_eq] at hs
    have hrw : heapSerState hp
        = dfsList appendHeapEntryToSamples hp.children []
            (initState heapInitTable) := by
      rw [heapSerState, serializeLoop_initEntries]
    obtain ⟨hS, -⟩ := dfsList_chains appendHeapEntryToSamples
      callbackGood_heap hp.children [] []
      (initState heapInitTable) (inv_initState _ heapInitTable_smap_wf)
      (by simp) (by simp) (by simp)
    rw [hrw] at hs ⊢
    rcases hS s hs with hmem | hex
    · simp [initState] at hmem
    · exact hex

/-- Closed instance of C2 at a one-node tree. -/
theorem c2_sample_stacks_are_ancestor_chains_witness :
    ∃ ch ∈ listChains c6Prof.topDownRoot.children [],
      (Sample.mk [1] [1, 5]).locationId
        = ch.map (locIdIn (timeSerState c6Prof 5)) :=
  (c2_sample_stacks_are_ancestor_chains c6Prof 5 heapEx 0 0 512).1
    ⟨[1], [1, 5]⟩ (by rw [c6Prof_sample_eval]; simp)

end CloudProfiler
